import Mathlib

/-!
The interactive shell input of lexy (`include/lexy/input/shell.hpp`)

A shallow embedding of `lexy::shell<Prompt>` and of its reader `shell::input`.

* The buffer (`_detail::buffer_builder`), the encoding and the `Prompt` concept are
  collaborators of `shell.hpp`; they are modelled from their documented contracts.
* The member functions of `shell` and `shell::input` are translated statement by
  statement.  Mutable state is passed explicitly; the calls made on the prompt and the
  calls of `grow()` are recorded, in call order, in a trace carried by the shell state.
* Reads outside the read region of the buffer, violated preconditions and failed
  assertions are faults: the functions return `Except Fault _`.
-/

namespace lexy

/-- Code units (`char_type` of a single-byte encoding), as natural numbers. -/
abbrev char_type := Nat

/-- The integer type of an encoding (`int_type`). -/
abbrev int_type := Int

/-- The code unit `'\n'`. -/
def newline : char_type := 10

/-- Modelled from the spec: the encoding abstraction (`lexy/input/base.hpp`, not among
the sources) defines an EOF sentinel "distinct from any valid code unit". -/
def encoding_eof : int_type := -1

/-- Modelled from the spec: `encoding::to_int_type`, the code unit "as the encoding's
representation"; never the EOF sentinel. -/
def to_int_type (c : char_type) : int_type := Int.ofNat c

/-- Ways in which a call can go wrong instead of returning. -/
inductive Fault where
  /-- The loop of `append_next_line` (or of a driver) did not finish within the fuel. -/
  | out_of_fuel
  /-- A read outside the read region of the buffer (`write_data()[-1]` on an empty read
  region, `read_data()[_idx]` with `_idx` not below `read_size()`). -/
  | out_of_bounds
  /-- A violated precondition (`commit(n)` with `n > write_size()`). -/
  | precondition
  /-- A failed `LEXY_ASSERT`. -/
  | assertion
  deriving DecidableEq, Repr

/-! ## The growable buffer -/

/-- Modelled from the spec: `lexy/_detail/buffer_builder.hpp` is not among the sources.
Section 4.1 of the specification gives its contract: a committed read region followed by
a write region of known capacity. -/
structure buffer_builder where
  /-- The read region: the code units committed so far. -/
  read_data : List char_type
  /-- Remaining writable capacity. -/
  write_size : Nat
  deriving DecidableEq, Repr

namespace buffer_builder

/-- Number of committed code units. -/
def read_size (b : buffer_builder) : Nat := b.read_data.length

/-- Total capacity: read region plus write region. -/
def capacity (b : buffer_builder) : Nat := b.read_data.length + b.write_size

/-- Modelled from the spec: `clear()` "resets the read region to empty" "without
necessarily shrinking capacity". -/
def clear (b : buffer_builder) : buffer_builder :=
  { read_data := [], write_size := b.write_size + b.read_data.length }

/-- Modelled from the spec: `grow()` "enlarges capacity using an amortized policy",
"preserving all previously committed data".  The policy `new_capacity` maps the current
capacity to the new one. -/
def grow (new_capacity : Nat → Nat) (b : buffer_builder) : buffer_builder :=
  { read_data := b.read_data, write_size := new_capacity b.capacity - b.read_data.length }

/-- Modelled from the spec: `commit(n)` "marks the first `n` bytes of the write region as
now part of the read region; requires `n ≤ write_size()`".  The bytes are the ones the
read callback has just written to `write_data()`. -/
def commit (b : buffer_builder) (written : List char_type) : Except Fault buffer_builder :=
  if written.length ≤ b.write_size then
    .ok { read_data := b.read_data ++ written, write_size := b.write_size - written.length }
  else .error .precondition

/-- The expression `write_data()[-1]`: the last committed code unit.  With an empty read
region the access lies before the storage. -/
def last_committed (b : buffer_builder) : Except Fault char_type :=
  match b.read_data.getLast? with
  | some c => .ok c
  | none => .error .out_of_bounds

/-- The expression `read_data()[i]`. -/
def read_at (b : buffer_builder) (i : Nat) : Except Fault char_type :=
  match b.read_data[i]? with
  | some c => .ok c
  | none => .error .out_of_bounds

end buffer_builder

/-- Modelled from the spec: "capacity doubling with a floor", one amortized policy. -/
def doubling (floor : Nat) (c : Nat) : Nat := max (2 * c) floor

/-! ## The prompt -/

/-- The `Prompt` concept (documented in the `#if 0` block of `shell.hpp`), over a prompt
state `σ`.  `primary_prompt`, `continuation_prompt`, `eof_prompt` and `done` only display;
their calls are recorded in the trace of the shell. -/
structure Prompt (σ : Type) where
  /-- Whether or not the user has closed the input. -/
  is_open : σ → Bool
  /-- The callback of `read_line()`, called with the size of the write area: the
  characters it stores, and the prompt state afterwards.  The count it returns is the
  length of the list. -/
  read_line : σ → Nat → List char_type × σ

/-- Calls observable from outside, in call order. -/
inductive Event where
  | primary_prompt
  | continuation_prompt
  | eof_prompt
  /-- The read callback was called with `size`, stored `stored` and returned its length. -/
  | read_line (size : Nat) (stored : List char_type)
  /-- The read callback was told `done()`. -/
  | done
  /-- The buffer was grown. -/
  | grow
  deriving DecidableEq, Repr

/-- Whether the event is one of the three prompts. -/
def Event.is_prompt : Event → Bool
  | .primary_prompt => true
  | .continuation_prompt => true
  | .eof_prompt => true
  | _ => false

/-- The prompts of a trace, in order. -/
def prompts (t : List Event) : List Event := t.filter Event.is_prompt

/-- The characters the read callback stored over a trace, in order. -/
def delivered : List Event → List char_type
  | [] => []
  | Event.read_line _ stored :: t => stored ++ delivered t
  | _ :: t => delivered t

/-- How often the buffer was grown over a trace. -/
def grows (t : List Event) : Nat := t.count Event.grow

/-! ## The shell -/

/-- The members of `shell<Prompt>`, and the trace. -/
structure shell (σ : Type) where
  _buffer : buffer_builder
  _prompt : σ
  trace : List Event

namespace shell

variable {σ : Type}

/-- Record an event. -/
def emit (sh : shell σ) (e : Event) : shell σ :=
  { sh with trace := sh.trace ++ [e] }

/-- The statement `_buffer.grow()`. -/
def grow (g : Nat → Nat) (sh : shell σ) : shell σ :=
  { sh with _buffer := sh._buffer.grow g, trace := sh.trace ++ [Event.grow] }

/-- The loop `for (auto reader = _prompt.read_line(); true;)` of `append_next_line`. -/
def read_loop (P : Prompt σ) (g : Nat → Nat) : Nat → shell σ → Except Fault (Bool × shell σ)
  | 0, _ => .error .out_of_fuel
  | fuel + 1, sh =>
    let buffer_size := sh._buffer.write_size
    let r := P.read_line sh._prompt buffer_size
    match sh._buffer.commit r.1 with
    | .error f => .error f
    | .ok b =>
      let sh1 : shell σ :=
        { _buffer := b, _prompt := r.2,
          trace := sh.trace ++ [Event.read_line buffer_size r.1] }
      match b.last_committed with
      | .error f => .error f
      | .ok c =>
        if c = newline then .ok (true, sh1.emit Event.done)
        else if r.1.length < buffer_size then
          if P.is_open sh1._prompt then .error .assertion else .ok (false, sh1)
        else read_loop P g fuel (sh1.grow g)

/-- The member `shell::append_next_line`. -/
def append_next_line (P : Prompt σ) (g : Nat → Nat) (fuel : Nat) (sh : shell σ) :
    Except Fault (Bool × shell σ) :=
  let min_capacity := 128
  read_loop P g fuel (if sh._buffer.write_size < min_capacity then sh.grow g else sh)

end shell

/-- The members of `shell::input` other than the pointer to the shell. -/
structure input where
  _idx : Nat
  deriving DecidableEq, Repr

namespace input

variable {σ : Type}

/-- The member `input::eof`. -/
def eof (P : Prompt σ) (g : Nat → Nat) (fuel : Nat) (sh : shell σ) (i : input) :
    Except Fault (Bool × shell σ) :=
  if i._idx ≠ sh._buffer.read_size then .ok (false, sh)
  else if !P.is_open sh._prompt then .ok (true, sh)
  else
    match shell.append_next_line P g fuel (sh.emit Event.continuation_prompt) with
    | .error f => .error f
    | .ok (did_append, sh1) =>
      .ok (!did_append, if !did_append then sh1.emit Event.eof_prompt else sh1)

/-- The member `input::peek`. -/
def peek (P : Prompt σ) (g : Nat → Nat) (fuel : Nat) (sh : shell σ) (i : input) :
    Except Fault (int_type × shell σ) :=
  match eof P g fuel sh i with
  | .error f => .error f
  | .ok (true, sh1) => .ok (encoding_eof, sh1)
  | .ok (false, sh1) =>
    match sh1._buffer.read_at i._idx with
    | .error f => .error f
    | .ok c => .ok (to_int_type c, sh1)

/-- The member `input::bump`. -/
def bump (i : input) : input := { _idx := i._idx + 1 }

/-- The member `input::cur`: a stable iterator is the logical index into the buffer. -/
def cur (i : input) : Nat := i._idx

end input

namespace shell

variable {σ : Type}

/-- The member `shell::prompt_for_input`, that is the constructor `input(shell*)`. -/
def prompt_for_input (P : Prompt σ) (g : Nat → Nat) (fuel : Nat) (sh : shell σ) :
    Except Fault (input × shell σ) :=
  let sh1 : shell σ := { sh with _buffer := sh._buffer.clear }
  match append_next_line P g fuel (sh1.emit Event.primary_prompt) with
  | .error f => .error f
  | .ok (true, sh2) => .ok ({ _idx := 0 }, sh2)
  | .ok (false, sh2) => .ok ({ _idx := 0 }, sh2.emit Event.eof_prompt)

end shell

/-! ## Prompts that follow the documented contract -/

/-- What the read callback stores when the pending input is `data` and it is called with
`size`: "Reads at most `size` characters into the `buffer` until and including a
newline." -/
def take_line : List char_type → Nat → List char_type
  | [], _ => []
  | _ :: _, 0 => []
  | c :: cs, n + 1 => if c = newline then [c] else c :: take_line cs n

/-- A newline-terminated line: no newline but the last code unit. -/
def IsLine (l : List char_type) : Prop :=
  ∃ body : List char_type, newline ∉ body ∧ l = body ++ [newline]

/-- The contract of `read_line` and `is_open`, relative to the input `pending s` that the
source behind the prompt state `s` has still to deliver. -/
structure Contract {σ : Type} (P : Prompt σ) (pending : σ → List char_type) : Prop where
  /-- The callback stores at most `size` characters, until and including a newline. -/
  read_chunk : ∀ s size, (P.read_line s size).1 = take_line (pending s) size
  /-- What was stored is no longer pending. -/
  read_rest : ∀ s size,
    pending (P.read_line s size).2 = (pending s).drop (take_line (pending s) size).length
  /-- A source with pending input is open. -/
  open_pending : ∀ s, pending s ≠ [] → P.is_open s = true
  /-- After a read of fewer than `size` characters that does not end a line, the prompt
  is closed ("read error but prompt still open?!"). -/
  closed_short : ∀ s size, (take_line (pending s) size).length < size →
    (take_line (pending s) size).getLast? ≠ some newline →
    P.is_open (P.read_line s size).2 = false

/-- The state of a stream such as `stdin`: the unread data and the end-of-file flag. -/
structure Stream where
  data : List char_type
  at_eof : Bool
  deriving DecidableEq, Repr

/-- A prompt over a stream that learns of the end of the input when a read runs into it,
as `default_prompt` does over `stdin` (`is_open` is `!feof(stdin) && !ferror(stdin)`). -/
def stream_prompt : Prompt Stream where
  is_open s := !s.at_eof
  read_line s size :=
    if s.at_eof then ([], s)
    else
      let chunk := take_line s.data size
      (chunk, { data := s.data.drop chunk.length,
                at_eof := decide (chunk.length < size) && (chunk.getLast? != some newline) })

/-- What a stream has still to deliver. -/
def Stream.pending (s : Stream) : List char_type := if s.at_eof then [] else s.data

/-- A prompt over a script that reports closed as soon as the script is used up. -/
def script_prompt : Prompt (List char_type) where
  is_open s := !s.isEmpty
  read_line s size := (take_line s size, s.drop (take_line s size).length)

/-! ## The engine's side of the reader contract -/

/-- Repeat `peek()` then `bump()` until `peek()` returns the EOF sentinel, at most `steps`
times; the code units seen, the reader and the shell at the EOF. -/
def drain {σ : Type} (P : Prompt σ) (g : Nat → Nat) (fuel : Nat) :
    Nat → shell σ → input → Except Fault (List int_type × input × shell σ)
  | 0, _, _ => .error .out_of_fuel
  | steps + 1, sh, i =>
    match input.peek P g fuel sh i with
    | .error f => .error f
    | .ok (c, sh1) =>
      if c = encoding_eof then .ok ([], i, sh1)
      else
        match drain P g fuel steps sh1 i.bump with
        | .error f => .error f
        | .ok (cs, i2, sh2) => .ok (c :: cs, i2, sh2)

/-- A shell as constructed by `shell()`: an empty buffer of the given capacity, no call
made yet. -/
def shell.fresh {σ : Type} (initial_capacity : Nat) (p : σ) : shell σ :=
  { _buffer := { read_data := [], write_size := initial_capacity }, _prompt := p, trace := [] }

/-- The calls an engine makes on a reader. -/
inductive reader_op where
  | peek
  | eof
  | bump
  deriving DecidableEq, Repr

/-- Make the calls one after the other on the reader `i`. -/
def run_ops {σ : Type} (P : Prompt σ) (g : Nat → Nat) (fuel : Nat) :
    List reader_op → shell σ → input → Except Fault (input × shell σ)
  | [], sh, i => .ok (i, sh)
  | reader_op.peek :: ops, sh, i =>
    match input.peek P g fuel sh i with
    | .error f => .error f
    | .ok (_, sh1) => run_ops P g fuel ops sh1 i
  | reader_op.eof :: ops, sh, i =>
    match input.eof P g fuel sh i with
    | .error f => .error f
    | .ok (_, sh1) => run_ops P g fuel ops sh1 i
  | reader_op.bump :: ops, sh, i => run_ops P g fuel ops sh i.bump

/-- One cycle of an engine: `prompt_for_input()`, then `peek()`/`bump()` up to and
including the first `peek()` that returns the EOF sentinel. -/
def session {σ : Type} (P : Prompt σ) (g : Nat → Nat) (fuel steps : Nat) (sh : shell σ) :
    Except Fault (List int_type × input × shell σ) :=
  match shell.prompt_for_input P g fuel sh with
  | .error f => .error f
  | .ok (i, sh1) => drain P g fuel steps sh1 i

/-- The shell after `reader(write_data(), buffer_size)` and `commit(read)`. -/
def shell.after_read {σ : Type} (P : Prompt σ) (sh : shell σ) : shell σ :=
  { _buffer :=
      { read_data := sh._buffer.read_data ++ (P.read_line sh._prompt sh._buffer.write_size).1,
        write_size :=
          sh._buffer.write_size - (P.read_line sh._prompt sh._buffer.write_size).1.length },
    _prompt := (P.read_line sh._prompt sh._buffer.write_size).2,
    trace := sh.trace ++ [Event.read_line sh._buffer.write_size
      (P.read_line sh._prompt sh._buffer.write_size).1] }

/-! ## The default prompt -/

/-- The function `std::strlen`: the number of code units before the first zero. -/
def strlen (str : List char_type) : Nat := (str.takeWhile (fun c => c != 0)).length

/-- The prompt `default_prompt` over `stdin`.  The read callback is
`std::fgets(memory, int(size), stdin)` followed by `std::strlen`: `fgets` stores at most
`size - 1` characters, until and including a newline, and sets the end-of-file flag when it
runs into the end of the stream; with nothing read it returns a null pointer and the
callback returns 0.  The callback returns the length up to the first zero.  (The check
`LEXY_PRECONDITION(size > 1)` is not modelled: with `size` at most 1 nothing is read.) -/
def default_prompt : Prompt Stream where
  is_open s := !s.at_eof
  read_line s size :=
    if s.at_eof then ([], s)
    else
      let got := take_line s.data (size - 1)
      (got.take (strlen got),
        { data := s.data.drop got.length,
          at_eof := decide (got.length < size - 1) && (got.getLast? != some newline) })

/-! ## The writer of `write_message` -/

/-- The callback object that `Prompt::write_message` returns, over its state `τ`:
`operator()(buffer, size)` receives the `size` code units at `buffer`. -/
structure prompt_writer (τ : Type) where
  write : τ → List char_type → τ
  done : τ → τ

/-- Modelled from the spec: a lexeme (`lexy/lexeme.hpp`, not among the sources) is "a pair
of cursors (begin, end) into the same buffer"; a cursor is a logical index. -/
structure lexeme where
  _begin : Nat
  _end : Nat
  deriving DecidableEq, Repr

/-- The member `lexeme::size`. -/
def lexeme.size (l : lexeme) : Nat := l._end - l._begin

/-- The calls a user makes on the writer.  A pointer argument is given by the memory
from the pointer on. -/
inductive writer_call where
  /-- The overload `operator()(const char_type* str, std::size_t length)`. -/
  | span (str : List char_type) (length : Nat)
  /-- The overload `operator()(const char_type* str)`. -/
  | str (str : List char_type)
  /-- The overload `operator()(char_type c)`. -/
  | unit (c : char_type)
  /-- The overload `operator()(lexy::lexeme_for<input> lexeme)`. -/
  | lexeme (l : lexeme)
  deriving DecidableEq, Repr

/-- The four overloads of `writer::operator()`, on the state `w` of the wrapped
callback. -/
def writer_apply {τ : Type} (W : prompt_writer τ) (b : buffer_builder) (w : τ) :
    writer_call → τ
  | writer_call.span str length => W.write w (str.take length)
  | writer_call.str str => W.write w (str.take (strlen str))
  | writer_call.unit c => W.write w [c]
  | writer_call.lexeme l => W.write w ((b.read_data.drop l._begin).take l.size)

/-- The member `shell::write_message` together with the life of the writer it returns:
the calls made on the writer, then its destructor `~writer()`. -/
def write_message {τ : Type} (W : prompt_writer τ) (b : buffer_builder) (w : τ)
    (calls : List writer_call) : τ :=
  W.done (calls.foldl (writer_apply W b) w)

/-- What a prompt's write callback can observe. -/
inductive write_event where
  | write (bytes : List char_type)
  | done
  deriving DecidableEq, Repr

/-- A write callback that records its calls in order. -/
def recording_writer : prompt_writer (List write_event) where
  write w bytes := w ++ [write_event.write bytes]
  done w := w ++ [write_event.done]

/-- The bytes the specification names for a writer call: "strlen bytes for a string, 1
byte for a code unit, lexeme.size() bytes starting at lexeme.begin() for a lexeme", the
span itself for a (pointer, length) span. -/
def spec_bytes (b : buffer_builder) : writer_call → List char_type
  | writer_call.span str length => str.take length
  | writer_call.str str => str.takeWhile (fun c => c != 0)
  | writer_call.unit c => [c]
  | writer_call.lexeme l => (List.range l.size).filterMap (fun k => b.read_data[l._begin + k]?)

/-! ## Observations on traces -/

/-- The capacities passed to the read callback over a trace, in order. -/
def read_sizes : List Event → List Nat
  | [] => []
  | Event.read_line size _ :: t => size :: read_sizes t
  | _ :: t => read_sizes t

/-- Whether every read that is followed by a `grow()` stored exactly the capacity it was
given, and at least one code unit. -/
def full_before_grow : List Event → Bool
  | Event.read_line size stored :: Event.grow :: t =>
    (stored.length == size) && decide (0 < size) && full_before_grow t
  | _ :: t => full_before_grow t
  | [] => true

/-! ## The code unit in front of the storage -/

/-- The expression `write_data()[-1]` as a value: the last committed code unit, and with an
empty read region the code unit `stray` that lies in front of the storage. -/
def buffer_builder.last_committed_or (stray : char_type) (b : buffer_builder) : char_type :=
  match b.read_data.getLast? with
  | some c => c
  | none => stray

/-- The loop of `append_next_line`, statement by statement as `shell.read_loop`, where the
inspection of `write_data()[-1]` with an empty read region yields `stray` and the call
goes on. -/
def shell.read_loop_stray {σ : Type} (P : Prompt σ) (g : Nat → Nat) (stray : char_type) :
    Nat → shell σ → Except Fault (Bool × shell σ)
  | 0, _ => .error .out_of_fuel
  | fuel + 1, sh =>
    let buffer_size := sh._buffer.write_size
    let r := P.read_line sh._prompt buffer_size
    match sh._buffer.commit r.1 with
    | .error f => .error f
    | .ok b =>
      let sh1 : shell σ :=
        { _buffer := b, _prompt := r.2,
          trace := sh.trace ++ [Event.read_line buffer_size r.1] }
      if b.last_committed_or stray = newline then .ok (true, sh1.emit Event.done)
      else if r.1.length < buffer_size then
        if P.is_open sh1._prompt then .error .assertion else .ok (false, sh1)
      else shell.read_loop_stray P g stray fuel (sh1.grow g)

/-- The member `shell::append_next_line` over `shell.read_loop_stray`. -/
def shell.append_next_line_stray {σ : Type} (P : Prompt σ) (g : Nat → Nat)
    (stray : char_type) (fuel : Nat) (sh : shell σ) : Except Fault (Bool × shell σ) :=
  let min_capacity := 128
  shell.read_loop_stray P g stray fuel
    (if sh._buffer.write_size < min_capacity then sh.grow g else sh)

/-- The member `shell::prompt_for_input` over `shell.append_next_line_stray`. -/
def shell.prompt_for_input_stray {σ : Type} (P : Prompt σ) (g : Nat → Nat)
    (stray : char_type) (fuel : Nat) (sh : shell σ) : Except Fault (input × shell σ) :=
  let sh1 : shell σ := { sh with _buffer := sh._buffer.clear }
  match shell.append_next_line_stray P g stray fuel (sh1.emit Event.primary_prompt) with
  | .error f => .error f
  | .ok (true, sh2) => .ok ({ _idx := 0 }, sh2)
  | .ok (false, sh2) => .ok ({ _idx := 0 }, sh2.emit Event.eof_prompt)

/-! # Lemmas -/

/-! ## One iteration of the loop of `append_next_line` -/

section steps

variable {σ : Type} (P : Prompt σ) (g : Nat → Nat)

theorem read_loop_done (fuel : Nat) (sh : shell σ)
    (hfit : (P.read_line sh._prompt sh._buffer.write_size).1.length ≤ sh._buffer.write_size)
    (hlast : (sh.after_read P)._buffer.read_data.getLast? = some newline) :
    shell.read_loop P g (fuel + 1) sh = .ok (true, (sh.after_read P).emit Event.done) := by
  simp only [shell.after_read] at hlast
  simp [shell.read_loop, buffer_builder.commit, hfit, buffer_builder.last_committed, hlast,
    shell.after_read]

theorem read_loop_more (fuel : Nat) (sh : shell σ) (c : char_type)
    (hfull : (P.read_line sh._prompt sh._buffer.write_size).1.length = sh._buffer.write_size)
    (hlast : (sh.after_read P)._buffer.read_data.getLast? = some c) (hc : c ≠ newline) :
    shell.read_loop P g (fuel + 1) sh = shell.read_loop P g fuel ((sh.after_read P).grow g) := by
  simp only [shell.after_read] at hlast
  simp [shell.read_loop, buffer_builder.commit, hfull, buffer_builder.last_committed, hlast,
    shell.after_read, hc]

theorem read_loop_short (fuel : Nat) (sh : shell σ) (c : char_type)
    (hshort : (P.read_line sh._prompt sh._buffer.write_size).1.length < sh._buffer.write_size)
    (hlast : (sh.after_read P)._buffer.read_data.getLast? = some c) (hc : c ≠ newline)
    (hclosed : P.is_open (P.read_line sh._prompt sh._buffer.write_size).2 = false) :
    shell.read_loop P g (fuel + 1) sh = .ok (false, sh.after_read P) := by
  simp only [shell.after_read] at hlast
  simp [shell.read_loop, buffer_builder.commit, hshort, Nat.le_of_lt hshort,
    buffer_builder.last_committed, hlast, shell.after_read, hc, hclosed]

theorem read_loop_nothing (fuel : Nat) (sh : shell σ)
    (hfit : (P.read_line sh._prompt sh._buffer.write_size).1.length ≤ sh._buffer.write_size)
    (hempty : (sh.after_read P)._buffer.read_data = []) :
    shell.read_loop P g (fuel + 1) sh = .error Fault.out_of_bounds := by
  simp only [shell.after_read] at hempty
  simp [shell.read_loop, buffer_builder.commit, hfit, buffer_builder.last_committed, hempty]

end steps

/-! ## Facts about `take_line` -/

theorem take_line_length_le (d : List char_type) (n : Nat) : (take_line d n).length ≤ n := by
  induction d generalizing n with
  | nil => simp [take_line]
  | cons c cs ih =>
    cases n with
    | zero => simp [take_line]
    | succ n =>
      by_cases h : c = newline
      · simp [take_line, h]
      · simpa [take_line, h] using ih n

theorem take_line_fits (body rest : List char_type) (n : Nat) (hb : newline ∉ body)
    (hn : body.length < n) : take_line (body ++ newline :: rest) n = body ++ [newline] := by
  induction body generalizing n with
  | nil =>
    cases n with
    | zero => simp at hn
    | succ n => simp [take_line]
  | cons c cs ih =>
    cases n with
    | zero => simp at hn
    | succ n =>
      have hc : c ≠ newline := fun h => hb (by simp [h])
      have hcs : newline ∉ cs := fun h => hb (by simp [h])
      have hn2 : cs.length < n := by simpa using hn
      simp [take_line, hc, ih n hcs hn2]

theorem take_line_full (body rest : List char_type) (n : Nat) (hb : newline ∉ body)
    (hn : n ≤ body.length) : take_line (body ++ newline :: rest) n = body.take n := by
  induction body generalizing n with
  | nil =>
    cases n with
    | zero => simp [take_line]
    | succ n => simp at hn
  | cons c cs ih =>
    cases n with
    | zero => simp [take_line]
    | succ n =>
      have hc : c ≠ newline := fun h => hb (by simp [h])
      have hcs : newline ∉ cs := fun h => hb (by simp [h])
      have hn2 : n ≤ cs.length := by simpa using hn
      simp [take_line, hc, ih n hcs hn2]

/-! ## Reading one line through a prompt that follows the contract -/

theorem getLast?_append_mem {α : Type} (xs ys : List α) (hy : ys ≠ []) :
    ∃ c, c ∈ ys ∧ (xs ++ ys).getLast? = some c := by
  refine ⟨ys.getLast hy, List.getLast_mem hy, ?_⟩
  rw [List.getLast?_append_of_ne_nil xs hy, List.getLast?_eq_getLast ys hy]

/-- The loop of `append_next_line` reads a pending line to its newline, whatever the
capacity it starts with, growing the buffer when the line does not fit. -/
theorem read_loop_line {σ : Type} {P : Prompt σ} {pending : σ → List char_type}
    (hP : Contract P pending) {g : Nat → Nat} (hg : ∀ c, c < g c) :
    ∀ (fuel : Nat) (body rest : List char_type) (sh : shell σ),
      newline ∉ body → pending sh._prompt = body ++ newline :: rest →
      0 < sh._buffer.write_size → body.length < fuel →
      ∃ sh1 evs, shell.read_loop P g fuel sh = .ok (true, sh1) ∧
        sh1._buffer.read_data = sh._buffer.read_data ++ (body ++ [newline]) ∧
        pending sh1._prompt = rest ∧
        sh1.trace = sh.trace ++ evs ∧ (∀ e ∈ evs, Event.is_prompt e = false) ∧
        (sh._buffer.write_size ≤ body.length → Event.grow ∈ evs) := by
  intro fuel
  induction fuel with
  | zero => intro body rest sh _ _ _ h; simp at h
  | succ fuel ih =>
    intro body rest sh hb hpend hws hfuel
    have hchunk := hP.read_chunk sh._prompt sh._buffer.write_size
    have hrest := hP.read_rest sh._prompt sh._buffer.write_size
    rw [hpend] at hchunk hrest
    by_cases hfit : body.length < sh._buffer.write_size
    · -- the rest of the line fits into the write area
      rw [take_line_fits body rest _ hb hfit] at hchunk hrest
      refine ⟨(sh.after_read P).emit Event.done,
        [Event.read_line sh._buffer.write_size (body ++ [newline]), Event.done],
        ?_, ?_, ?_, ?_, ?_, ?_⟩
      · apply read_loop_done
        · rw [hchunk]; simpa using hfit
        · simp [shell.after_read, hchunk]
      · simp [shell.after_read, shell.emit, hchunk]
      · simpa [shell.after_read, shell.emit] using hrest
      · simp [shell.after_read, shell.emit, hchunk]
      · intro e he
        simp at he
        rcases he with rfl | rfl <;> rfl
      · intro h; omega
    · -- the write area is filled without reaching the newline
      have hle : sh._buffer.write_size ≤ body.length := Nat.le_of_not_lt hfit
      rw [take_line_full body rest _ hb hle] at hchunk hrest
      have hlen : (P.read_line sh._prompt sh._buffer.write_size).1.length
          = sh._buffer.write_size := by
        rw [hchunk]; simp [hle]
      have hne : body.take sh._buffer.write_size ≠ [] := by
        intro h
        have := congrArg List.length h
        rw [List.length_take, List.length_nil] at this
        omega
      obtain ⟨c, hcmem, hclast⟩ :=
        getLast?_append_mem sh._buffer.read_data (body.take sh._buffer.write_size) hne
      have hcne : c ≠ newline := fun h => hb (h ▸ List.mem_of_mem_take hcmem)
      have hstep := read_loop_more P g fuel sh c hlen
        (by simpa [shell.after_read, hchunk] using hclast) hcne
      have hpend2 : pending ((sh.after_read P).grow g)._prompt
          = body.drop sh._buffer.write_size ++ newline :: rest := by
        have : pending (P.read_line sh._prompt sh._buffer.write_size).2
            = body.drop sh._buffer.write_size ++ newline :: rest := by
          rw [hrest]
          simp [hle, List.drop_append_of_le_length]
        simpa [shell.after_read, shell.grow] using this
      have hws2 : 0 < ((sh.after_read P).grow g)._buffer.write_size := by
        have := hg (sh.after_read P)._buffer.capacity
        simp only [shell.grow, buffer_builder.grow, buffer_builder.capacity] at this ⊢
        simp only [shell.after_read, hlen] at this ⊢
        omega
      have hfuel2 : (body.drop sh._buffer.write_size).length < fuel := by
        rw [List.length_drop]
        omega
      obtain ⟨sh1, evs, hrun, hdata, hp, htrace, hev, _⟩ :=
        ih (body.drop sh._buffer.write_size) rest ((sh.after_read P).grow g)
          (fun h => hb (List.mem_of_mem_drop h)) hpend2 hws2 hfuel2
      refine ⟨sh1, Event.read_line sh._buffer.write_size (body.take sh._buffer.write_size)
        :: Event.grow :: evs, ?_, ?_, hp, ?_, ?_, ?_⟩
      · rw [hstep, hrun]
      · rw [hdata]
        simp only [shell.grow, buffer_builder.grow, shell.after_read, hchunk]
        rw [List.append_assoc, ← List.append_assoc (body.take _), List.take_append_drop]
      · rw [htrace]
        simp [shell.grow, shell.after_read, hchunk]
      · intro e he
        simp at he
        rcases he with rfl | rfl | he
        · rfl
        · rfl
        · exact hev e he
      · intro _; simp

/-- The function `append_next_line` with a line pending: it returns true, the read region
gains exactly the line, and no prompt is displayed. -/
theorem append_next_line_line {σ : Type} {P : Prompt σ} {pending : σ → List char_type}
    (hP : Contract P pending) {g : Nat → Nat} (hg : ∀ c, c < g c)
    (fuel : Nat) (body rest : List char_type) (sh : shell σ)
    (hb : newline ∉ body) (hpend : pending sh._prompt = body ++ newline :: rest)
    (hfuel : body.length < fuel) :
    ∃ sh1 evs, shell.append_next_line P g fuel sh = .ok (true, sh1) ∧
      sh1._buffer.read_data = sh._buffer.read_data ++ (body ++ [newline]) ∧
      pending sh1._prompt = rest ∧
      sh1.trace = sh.trace ++ evs ∧ (∀ e ∈ evs, Event.is_prompt e = false) ∧
      (sh._buffer.write_size ≤ body.length → Event.grow ∈ evs) := by
  unfold shell.append_next_line
  by_cases hsmall : sh._buffer.write_size < 128
  · have hws : 0 < (sh.grow g)._buffer.write_size := by
      have := hg sh._buffer.capacity
      simp only [shell.grow, buffer_builder.grow, buffer_builder.capacity] at this ⊢
      omega
    obtain ⟨sh1, evs, hrun, hdata, hp, htrace, hev, _⟩ :=
      read_loop_line hP hg fuel body rest (sh.grow g) hb (by simpa [shell.grow] using hpend)
        hws hfuel
    refine ⟨sh1, Event.grow :: evs, ?_, ?_, hp, ?_, ?_, ?_⟩
    · simpa [hsmall] using hrun
    · simpa [shell.grow, buffer_builder.grow] using hdata
    · simpa [shell.grow] using htrace
    · intro e he
      simp at he
      rcases he with rfl | he
      · rfl
      · exact hev e he
    · intro _; simp
  · obtain ⟨sh1, evs, hrun, hdata, hp, htrace, hev, hgrow⟩ :=
      read_loop_line hP hg fuel body rest sh hb hpend (by omega) hfuel
    exact ⟨sh1, evs, by simpa [hsmall] using hrun, hdata, hp, htrace, hev, hgrow⟩

/-! ## What `append_next_line` may change, for every prompt -/

theorem delivered_append (t u : List Event) : delivered (t ++ u) = delivered t ++ delivered u := by
  induction t with
  | nil => rfl
  | cons e t ih => cases e <;> simp [delivered, ih]

/-- Whenever the loop returns, the trace has grown by reads, grows and `done` only, and
the read region by exactly what the reads stored. -/
theorem read_loop_frame {σ : Type} (P : Prompt σ) (g : Nat → Nat) :
    ∀ (fuel : Nat) (sh : shell σ) (r : Bool) (sh1 : shell σ),
      shell.read_loop P g fuel sh = .ok (r, sh1) →
      ∃ evs, sh1.trace = sh.trace ++ evs ∧ (∀ e ∈ evs, Event.is_prompt e = false) ∧
        sh1._buffer.read_data = sh._buffer.read_data ++ delivered evs := by
  intro fuel
  induction fuel with
  | zero => intro sh r sh1 h; simp [shell.read_loop] at h
  | succ fuel ih =>
    intro sh r sh1 h
    simp only [shell.read_loop, buffer_builder.commit, buffer_builder.last_committed] at h
    split at h
    · simp at h
    · rename_i b hb
      split at hb
      · injection hb with hb
        subst hb
        split at h
        · simp at h
        · rename_i c hc
          split at h
          · injection h with h
            injection h with hr hs
            subst hs
            refine ⟨[Event.read_line sh._buffer.write_size
              (P.read_line sh._prompt sh._buffer.write_size).1, Event.done], ?_, ?_, ?_⟩
            · simp [shell.emit]
            · intro e he
              simp at he
              rcases he with rfl | rfl <;> rfl
            · simp [shell.emit, delivered]
          · split at h
            · split at h
              · simp at h
              · injection h with h
                injection h with hr hs
                subst hs
                refine ⟨[Event.read_line sh._buffer.write_size
                  (P.read_line sh._prompt sh._buffer.write_size).1], ?_, ?_, ?_⟩
                · simp
                · intro e he
                  simp at he
                  subst he
                  rfl
                · simp [delivered]
            · obtain ⟨evs, ht, hev, hd⟩ := ih _ r sh1 h
              refine ⟨Event.read_line sh._buffer.write_size
                (P.read_line sh._prompt sh._buffer.write_size).1 :: Event.grow :: evs,
                ?_, ?_, ?_⟩
              · rw [ht]; simp [shell.grow]
              · intro e he
                simp at he
                rcases he with rfl | rfl | he
                · rfl
                · rfl
                · exact hev e he
              · rw [hd]; simp [shell.grow, buffer_builder.grow, delivered]
      · simp at hb

/-- The same for `append_next_line`. -/
theorem append_next_line_frame {σ : Type} (P : Prompt σ) (g : Nat → Nat) (fuel : Nat)
    (sh : shell σ) (r : Bool) (sh1 : shell σ)
    (h : shell.append_next_line P g fuel sh = .ok (r, sh1)) :
    ∃ evs, sh1.trace = sh.trace ++ evs ∧ (∀ e ∈ evs, Event.is_prompt e = false) ∧
      sh1._buffer.read_data = sh._buffer.read_data ++ delivered evs := by
  unfold shell.append_next_line at h
  by_cases hsmall : sh._buffer.write_size < 128
  · simp only [hsmall, if_true] at h
    obtain ⟨evs, ht, hev, hd⟩ := read_loop_frame P g fuel _ r sh1 h
    refine ⟨Event.grow :: evs, ?_, ?_, ?_⟩
    · rw [ht]; simp [shell.grow]
    · intro e he
      simp at he
      rcases he with rfl | he
      · rfl
      · exact hev e he
    · rw [hd]; simp [shell.grow, buffer_builder.grow, delivered]
  · simp only [hsmall, if_false] at h
    exact read_loop_frame P g fuel sh r sh1 h

/-! ## The model prompts follow the contract -/

theorem take_line_short (d : List char_type) (n : Nat) (hlen : (take_line d n).length < n)
    (hlast : (take_line d n).getLast? ≠ some newline) : take_line d n = d := by
  induction d generalizing n with
  | nil => simp [take_line]
  | cons c cs ih =>
    cases n with
    | zero => simp at hlen
    | succ n =>
      by_cases h : c = newline
      · simp [take_line, h] at hlast
      · simp only [take_line, h, if_false, List.length_cons] at hlen hlast ⊢
        have hlen2 : (take_line cs n).length < n := by omega
        have hlast2 : (take_line cs n).getLast? ≠ some newline := by
          intro hl
          apply hlast
          cases hq : take_line cs n with
          | nil => simp [hq] at hl
          | cons x xs => rw [hq] at hl; simpa [List.getLast?_cons_cons] using hl
        rw [ih n hlen2 hlast2]

theorem script_prompt_contract : Contract script_prompt id where
  read_chunk _ _ := rfl
  read_rest _ _ := rfl
  open_pending s hs := by
    cases s with
    | nil => exact absurd rfl hs
    | cons c cs => rfl
  closed_short s size hlen hlast := by
    have h := take_line_short s size hlen hlast
    simp only [id] at h
    simp [script_prompt, h]

theorem stream_prompt_contract : Contract stream_prompt Stream.pending where
  read_chunk s size := by
    cases hs : s.at_eof <;> simp [stream_prompt, Stream.pending, hs, take_line]
  read_rest s size := by
    cases hs : s.at_eof
    · simp only [stream_prompt, Stream.pending, hs, if_false, Bool.false_eq_true]
      split
      · rename_i h
        simp only [Bool.and_eq_true, decide_eq_true_eq, bne_iff_ne, ne_eq] at h
        rw [take_line_short s.data size h.1 h.2]
        simp
      · rfl
    · simp [stream_prompt, Stream.pending, hs, take_line]
  open_pending s hs := by
    cases h : s.at_eof
    · simp [stream_prompt, h]
    · simp [Stream.pending, h] at hs
  closed_short s size hlen hlast := by
    cases hs : s.at_eof
    · simp only [Stream.pending, hs, if_false, Bool.false_eq_true] at hlen hlast
      simp [stream_prompt, hs, hlen, hlast]
    · simp [stream_prompt, hs]

theorem doubling_enlarges (floor : Nat) (hfloor : 0 < floor) (c : Nat) : c < doubling floor c := by
  unfold doubling
  omega

/-! ## The reader -/

section reader

variable {σ : Type} (P : Prompt σ) (g : Nat → Nat)

theorem to_int_type_ne_eof (c : char_type) : to_int_type c ≠ encoding_eof := by
  intro h
  have h0 : (0 : Int) ≤ to_int_type c := Int.ofNat_nonneg c
  rw [h] at h0
  exact absurd h0 (by decide)

/-- Inside the read region `eof()` is false and touches nothing. -/
theorem eof_inside (fuel : Nat) (sh : shell σ) (i : input)
    (h : i._idx < sh._buffer.read_size) : input.eof P g fuel sh i = .ok (false, sh) := by
  simp [input.eof, Nat.ne_of_lt h]

/-- Inside the read region `peek()` returns the code unit at the index. -/
theorem peek_inside (fuel : Nat) (sh : shell σ) (i : input) (c : char_type)
    (h : sh._buffer.read_data[i._idx]? = some c) :
    input.peek P g fuel sh i = .ok (to_int_type c, sh) := by
  have hlt : i._idx < sh._buffer.read_size := by
    simpa [buffer_builder.read_size] using (List.getElem?_eq_some_iff.mp h).1
  simp [input.peek, eof_inside P g fuel sh i hlt, buffer_builder.read_at, h]

/-- At the end of the read region of a closed prompt `peek()` is the EOF sentinel. -/
theorem peek_closed (fuel : Nat) (sh : shell σ) (i : input)
    (hidx : i._idx = sh._buffer.read_size) (hclosed : P.is_open sh._prompt = false) :
    input.peek P g fuel sh i = .ok (encoding_eof, sh) := by
  simp [input.peek, input.eof, hidx, hclosed]

/-- Over a closed prompt the engine sees the rest of the read region, then EOF. -/
theorem drain_closed (fuel : Nat) (sh : shell σ) (hclosed : P.is_open sh._prompt = false) :
    ∀ (steps : Nat) (i : input), i._idx ≤ sh._buffer.read_size →
      sh._buffer.read_size - i._idx < steps →
      drain P g fuel steps sh i
        = .ok ((sh._buffer.read_data.drop i._idx).map to_int_type,
            { _idx := sh._buffer.read_size }, sh) := by
  intro steps
  induction steps with
  | zero => intro i _ h; simp at h
  | succ steps ih =>
    intro i hle hsteps
    by_cases hlt : i._idx < sh._buffer.read_size
    · have hlt2 : i._idx < sh._buffer.read_data.length := hlt
      have hget : sh._buffer.read_data[i._idx]? = some sh._buffer.read_data[i._idx] :=
        List.getElem?_eq_getElem hlt2
      have hrec := ih i.bump (by simp only [input.bump]; omega)
        (by simp only [input.bump]; omega)
      simp only [drain, peek_inside P g fuel sh i _ hget, to_int_type_ne_eof, if_false, hrec]
      simp only [input.bump]
      rw [← List.map_cons, List.getElem_cons_drop]
    · have hidx : i._idx = sh._buffer.read_size := by omega
      have hdrop : sh._buffer.read_data.drop i._idx = [] := by
        rw [hidx]; simp [buffer_builder.read_size]
      cases i with
      | mk k =>
        simp only at hidx hdrop
        rw [hdrop]
        subst hidx
        simp [drain, peek_closed P g fuel sh ⟨sh._buffer.read_size⟩ rfl hclosed]

/-- Whenever `eof()` returns, the old read region is the beginning of the new one. -/
theorem eof_extends (fuel : Nat) (sh : shell σ) (i : input) (r : Bool) (sh1 : shell σ)
    (h : input.eof P g fuel sh i = .ok (r, sh1)) :
    sh._buffer.read_data <+: sh1._buffer.read_data := by
  unfold input.eof at h
  split at h
  · injection h with h; injection h with _ hs; subst hs; exact List.prefix_refl _
  · split at h
    · injection h with h; injection h with _ hs; subst hs; exact List.prefix_refl _
    · split at h
      · simp at h
      · rename_i did sh2 happ
        obtain ⟨evs, _, _, hd⟩ := append_next_line_frame P g fuel _ did sh2 happ
        injection h with h; injection h with _ hs; subst hs
        have : sh._buffer.read_data <+: sh2._buffer.read_data := by
          rw [hd]; exact List.prefix_append _ _
        cases did <;> simpa [shell.emit] using this

/-- Whenever `peek()` returns, the old read region is the beginning of the new one. -/
theorem peek_extends (fuel : Nat) (sh : shell σ) (i : input) (c : int_type) (sh1 : shell σ)
    (h : input.peek P g fuel sh i = .ok (c, sh1)) :
    sh._buffer.read_data <+: sh1._buffer.read_data := by
  unfold input.peek at h
  split at h
  · simp at h
  · rename_i sh2 he
    injection h with h; injection h with _ hs; subst hs
    exact eof_extends P g fuel sh i true sh2 he
  · rename_i sh2 he
    split at h
    · simp at h
    · injection h with h; injection h with _ hs; subst hs
      exact eof_extends P g fuel sh i false sh2 he

end reader

theorem run_ops_extends {σ : Type} (P : Prompt σ) (g : Nat → Nat) (fuel : Nat) :
    ∀ (ops : List reader_op) (sh : shell σ) (i : input) (i1 : input) (sh1 : shell σ),
      run_ops P g fuel ops sh i = .ok (i1, sh1) →
      sh._buffer.read_data <+: sh1._buffer.read_data := by
  intro ops
  induction ops with
  | nil =>
    intro sh i i1 sh1 h
    simp only [run_ops] at h
    injection h with h; injection h with _ hs; subst hs; exact List.prefix_refl _
  | cons op ops ih =>
    intro sh i i1 sh1 h
    cases op with
    | peek =>
      simp only [run_ops] at h
      split at h
      · simp at h
      · rename_i c sh2 hp
        exact (peek_extends P g fuel sh i c sh2 hp).trans (ih sh2 i i1 sh1 h)
    | eof =>
      simp only [run_ops] at h
      split at h
      · simp at h
      · rename_i r sh2 hp
        exact (eof_extends P g fuel sh i r sh2 hp).trans (ih sh2 i i1 sh1 h)
    | bump =>
      simp only [run_ops] at h
      exact ih sh i.bump i1 sh1 h

/-! ## Input that ends without a newline -/

theorem take_line_plain (d : List char_type) (n : Nat) (hd : newline ∉ d) :
    take_line d n = d.take n := by
  induction d generalizing n with
  | nil => simp [take_line]
  | cons c cs ih =>
    cases n with
    | zero => simp [take_line]
    | succ n =>
      have hc : c ≠ newline := fun h => hd (by simp [h])
      have hcs : newline ∉ cs := fun h => hd (by simp [h])
      simp [take_line, hc, ih n hcs]

/-- The loop of `append_next_line` over pending input that ends before a newline: it
commits all of it and returns false. -/
theorem read_loop_unterminated {σ : Type} {P : Prompt σ} {pending : σ → List char_type}
    (hP : Contract P pending) {g : Nat → Nat} (hg : ∀ c, c < g c) :
    ∀ (fuel : Nat) (part : List char_type) (sh : shell σ),
      newline ∉ part → pending sh._prompt = part →
      (∃ c, (sh._buffer.read_data ++ part).getLast? = some c ∧ c ≠ newline) →
      0 < sh._buffer.write_size → part.length < fuel →
      ∃ sh1 evs, shell.read_loop P g fuel sh = .ok (false, sh1) ∧
        sh1._buffer.read_data = sh._buffer.read_data ++ part ∧
        sh1.trace = sh.trace ++ evs ∧ (∀ e ∈ evs, Event.is_prompt e = false) := by
  intro fuel
  induction fuel with
  | zero => intro part sh _ _ _ _ h; simp at h
  | succ fuel ih =>
    intro part sh hb hpend hlast hws hfuel
    obtain ⟨c, hclast, hcne⟩ := hlast
    have hchunk := hP.read_chunk sh._prompt sh._buffer.write_size
    have hrest := hP.read_rest sh._prompt sh._buffer.write_size
    have hclosed := hP.closed_short sh._prompt sh._buffer.write_size
    rw [hpend, take_line_plain part _ hb] at hchunk hrest hclosed
    by_cases hfit : part.length < sh._buffer.write_size
    · rw [List.take_of_length_le (Nat.le_of_lt hfit)] at hchunk hrest hclosed
      have hnl : part.getLast? ≠ some newline := by
        intro h
        exact hb (List.mem_of_getLast?_eq_some h)
      refine ⟨sh.after_read P, [Event.read_line sh._buffer.write_size part], ?_, ?_, ?_, ?_⟩
      · apply read_loop_short P g fuel sh c
        · rw [hchunk]; exact hfit
        · simpa [shell.after_read, hchunk] using hclast
        · exact hcne
        · exact hclosed hfit hnl
      · simp [shell.after_read, hchunk]
      · simp [shell.after_read, hchunk]
      · intro e he
        simp at he
        subst he
        rfl
    · have hle : sh._buffer.write_size ≤ part.length := Nat.le_of_not_lt hfit
      have hlen : (P.read_line sh._prompt sh._buffer.write_size).1.length
          = sh._buffer.write_size := by
        rw [hchunk, List.length_take]; omega
      have hne : part.take sh._buffer.write_size ≠ [] := by
        intro h
        have := congrArg List.length h
        rw [List.length_take, List.length_nil] at this
        omega
      obtain ⟨c2, hc2mem, hc2last⟩ :=
        getLast?_append_mem sh._buffer.read_data (part.take sh._buffer.write_size) hne
      have hc2ne : c2 ≠ newline := fun h => hb (h ▸ List.mem_of_mem_take hc2mem)
      have hstep := read_loop_more P g fuel sh c2 hlen
        (by simpa [shell.after_read, hchunk] using hc2last) hc2ne
      have hpend2 : pending ((sh.after_read P).grow g)._prompt
          = part.drop sh._buffer.write_size := by
        have : pending (P.read_line sh._prompt sh._buffer.write_size).2
            = part.drop sh._buffer.write_size := by
          rw [hrest, List.length_take, Nat.min_eq_left hle]
        simpa [shell.after_read, shell.grow] using this
      have hdata2 : ((sh.after_read P).grow g)._buffer.read_data
          ++ part.drop sh._buffer.write_size = sh._buffer.read_data ++ part := by
        simp only [shell.grow, buffer_builder.grow, shell.after_read, hchunk]
        rw [List.append_assoc, List.take_append_drop]
      have hws2 : 0 < ((sh.after_read P).grow g)._buffer.write_size := by
        have := hg (sh.after_read P)._buffer.capacity
        simp only [shell.grow, buffer_builder.grow, buffer_builder.capacity] at this ⊢
        simp only [shell.after_read, hlen] at this ⊢
        omega
      have hfuel2 : (part.drop sh._buffer.write_size).length < fuel := by
        rw [List.length_drop]
        omega
      obtain ⟨sh1, evs, hrun, hdata, htrace, hev⟩ :=
        ih (part.drop sh._buffer.write_size) ((sh.after_read P).grow g)
          (fun h => hb (List.mem_of_mem_drop h)) hpend2
          ⟨c, by rw [hdata2]; exact hclast, hcne⟩ hws2 hfuel2
      refine ⟨sh1, Event.read_line sh._buffer.write_size (part.take sh._buffer.write_size)
        :: Event.grow :: evs, ?_, ?_, ?_, ?_⟩
      · rw [hstep, hrun]
      · rw [hdata, hdata2]
      · rw [htrace]
        simp [shell.grow, shell.after_read, hchunk]
      · intro e he
        simp at he
        rcases he with rfl | rfl | he
        · rfl
        · rfl
        · exact hev e he

/-- The function `append_next_line` over pending input that ends before a newline. -/
theorem append_next_line_unterminated {σ : Type} {P : Prompt σ} {pending : σ → List char_type}
    (hP : Contract P pending) {g : Nat → Nat} (hg : ∀ c, c < g c)
    (fuel : Nat) (part : List char_type) (sh : shell σ)
    (hb : newline ∉ part) (hpend : pending sh._prompt = part)
    (hlast : ∃ c, (sh._buffer.read_data ++ part).getLast? = some c ∧ c ≠ newline)
    (hfuel : part.length < fuel) :
    ∃ sh1 evs, shell.append_next_line P g fuel sh = .ok (false, sh1) ∧
      sh1._buffer.read_data = sh._buffer.read_data ++ part ∧
      sh1.trace = sh.trace ++ evs ∧ (∀ e ∈ evs, Event.is_prompt e = false) := by
  unfold shell.append_next_line
  by_cases hsmall : sh._buffer.write_size < 128
  · have hws : 0 < (sh.grow g)._buffer.write_size := by
      have := hg sh._buffer.capacity
      simp only [shell.grow, buffer_builder.grow, buffer_builder.capacity] at this ⊢
      omega
    obtain ⟨sh1, evs, hrun, hdata, htrace, hev⟩ :=
      read_loop_unterminated hP hg fuel part (sh.grow g) hb (by simpa [shell.grow] using hpend)
        (by simpa [shell.grow, buffer_builder.grow] using hlast) hws hfuel
    refine ⟨sh1, Event.grow :: evs, ?_, ?_, ?_, ?_⟩
    · simpa [hsmall] using hrun
    · simpa [shell.grow, buffer_builder.grow] using hdata
    · simpa [shell.grow] using htrace
    · intro e he
      simp at he
      rcases he with rfl | he
      · rfl
      · exact hev e he
  · obtain ⟨sh1, evs, hrun, hdata, htrace, hev⟩ :=
      read_loop_unterminated hP hg fuel part sh hb hpend hlast (by omega) hfuel
    exact ⟨sh1, evs, by simpa [hsmall] using hrun, hdata, htrace, hev⟩

/-! ## Helpers for the statements about prompts and cycles -/

theorem prompts_append (t u : List Event) : prompts (t ++ u) = prompts t ++ prompts u := by
  simp [prompts]

theorem prompts_quiet (evs : List Event) (h : ∀ e ∈ evs, Event.is_prompt e = false) :
    prompts evs = [] := by
  unfold prompts
  rw [List.filter_eq_nil_iff]
  intro e he
  simp [h e he]

theorem grows_append (t u : List Event) : grows (t ++ u) = grows t + grows u := by
  simp [grows]

theorem grows_pos_of_mem (evs : List Event) (h : Event.grow ∈ evs) : 0 < grows evs := by
  unfold grows
  exact List.count_pos_iff.mpr h

/-- A new cycle over a pending line: the buffer holds exactly the line afterwards. -/
theorem prompt_for_input_line {σ : Type} {P : Prompt σ} {pending : σ → List char_type}
    (hP : Contract P pending) {g : Nat → Nat} (hg : ∀ c, c < g c)
    (fuel : Nat) (body rest : List char_type) (sh : shell σ)
    (hb : newline ∉ body) (hpend : pending sh._prompt = body ++ newline :: rest)
    (hfuel : body.length < fuel) :
    ∃ sh1 evs, shell.prompt_for_input P g fuel sh = .ok ({ _idx := 0 }, sh1) ∧
      sh1._buffer.read_data = body ++ [newline] ∧ pending sh1._prompt = rest ∧
      sh1.trace = sh.trace ++ Event.primary_prompt :: evs ∧
      (∀ e ∈ evs, Event.is_prompt e = false) := by
  obtain ⟨sh1, evs, hrun, hdata, hp, htrace, hev, _⟩ :=
    append_next_line_line hP hg fuel body rest
      (({ sh with _buffer := sh._buffer.clear } : shell σ).emit Event.primary_prompt)
      hb (by simpa [shell.emit] using hpend) hfuel
  refine ⟨sh1, evs, ?_, ?_, hp, ?_, hev⟩
  · simp [shell.prompt_for_input, hrun]
  · simpa [shell.emit, buffer_builder.clear] using hdata
  · simpa [shell.emit] using htrace

/-- A new cycle over pending input that ends before a newline: the EOF prompt follows. -/
theorem prompt_for_input_unterminated {σ : Type} {P : Prompt σ}
    {pending : σ → List char_type} (hP : Contract P pending) {g : Nat → Nat}
    (hg : ∀ c, c < g c) (fuel : Nat) (part : List char_type) (sh : shell σ)
    (hne : part ≠ []) (hb : newline ∉ part) (hpend : pending sh._prompt = part)
    (hfuel : part.length < fuel) :
    ∃ sh1 evs, shell.prompt_for_input P g fuel sh = .ok ({ _idx := 0 }, sh1) ∧
      sh1._buffer.read_data = part ∧
      sh1.trace = sh.trace ++ Event.primary_prompt :: (evs ++ [Event.eof_prompt]) ∧
      (∀ e ∈ evs, Event.is_prompt e = false) := by
  have hlast : ∃ c, (([] : List char_type) ++ part).getLast? = some c ∧ c ≠ newline := by
    obtain ⟨c, hc, hl⟩ := getLast?_append_mem ([] : List char_type) part hne
    exact ⟨c, hl, fun h => hb (h ▸ hc)⟩
  obtain ⟨sh1, evs, hrun, hdata, htrace, hev⟩ :=
    append_next_line_unterminated hP hg fuel part
      (({ sh with _buffer := sh._buffer.clear } : shell σ).emit Event.primary_prompt)
      hb (by simpa [shell.emit] using hpend)
      (by simpa [shell.emit, buffer_builder.clear] using hlast) hfuel
  refine ⟨sh1.emit Event.eof_prompt, evs, ?_, ?_, ?_, hev⟩
  · simp [shell.prompt_for_input, hrun]
  · simpa [shell.emit, buffer_builder.clear] using hdata
  · simp [shell.emit, htrace]

/-- Whatever the prompt does, a cycle that returns has cleared the buffer, displayed the
primary prompt, called `append_next_line` once, and displayed the EOF prompt exactly when
that call returned false; the buffer holds what the reads of the cycle stored. -/
theorem prompt_for_input_frame {σ : Type} (P : Prompt σ) (g : Nat → Nat) (fuel : Nat)
    (sh : shell σ) (i : input) (sh1 : shell σ)
    (h : shell.prompt_for_input P g fuel sh = .ok (i, sh1)) :
    i._idx = 0 ∧ ∃ r sh2 evs,
      shell.append_next_line P g fuel
          { _buffer := { read_data := [], write_size := sh._buffer.capacity },
            _prompt := sh._prompt, trace := sh.trace ++ [Event.primary_prompt] }
        = .ok (r, sh2) ∧
      sh2.trace = sh.trace ++ Event.primary_prompt :: evs ∧
      (∀ e ∈ evs, Event.is_prompt e = false) ∧
      sh1.trace = sh2.trace ++ (if r then [] else [Event.eof_prompt]) ∧
      sh1._buffer.read_data = delivered evs := by
  have hstart : (({ sh with _buffer := sh._buffer.clear } : shell σ).emit Event.primary_prompt)
      = { _buffer := { read_data := [], write_size := sh._buffer.capacity },
          _prompt := sh._prompt, trace := sh.trace ++ [Event.primary_prompt] } := by
    simp [shell.emit, buffer_builder.clear, buffer_builder.capacity, Nat.add_comm]
  simp only [shell.prompt_for_input, hstart] at h
  split at h
  · simp at h
  · rename_i sh2 happ
    obtain ⟨evs, ht, hev, hd⟩ := append_next_line_frame P g fuel _ true sh2 happ
    injection h with h; injection h with hi hs; subst hi; subst hs
    exact ⟨rfl, true, sh2, evs, happ, by simpa using ht, hev, by simp, by simpa using hd⟩
  · rename_i sh2 happ
    obtain ⟨evs, ht, hev, hd⟩ := append_next_line_frame P g fuel _ false sh2 happ
    injection h with h; injection h with hi hs; subst hi; subst hs
    exact ⟨rfl, false, sh2, evs, happ, by simpa using ht, hev, by simp [shell.emit],
      by simpa [shell.emit] using hd⟩

/-- With a newline at the end of the read region, a call of `append_next_line` whose read
stores nothing returns true and leaves the read region as it was. -/
theorem append_next_line_leftover_newline {σ : Type} (P : Prompt σ) (g : Nat → Nat)
    (fuel : Nat) (sh : shell σ) (hlast : sh._buffer.read_data.getLast? = some newline)
    (hnone : ∀ n, (P.read_line sh._prompt n).1 = []) :
    ∃ sh1, shell.append_next_line P g (fuel + 1) sh = .ok (true, sh1) ∧
      sh1._buffer.read_data = sh._buffer.read_data := by
  have key : ∀ s : shell σ, s._prompt = sh._prompt →
      s._buffer.read_data = sh._buffer.read_data →
      ∃ sh1, shell.read_loop P g (fuel + 1) s = .ok (true, sh1) ∧
        sh1._buffer.read_data = sh._buffer.read_data := by
    intro s hp hd
    refine ⟨(s.after_read P).emit Event.done, ?_, ?_⟩
    · apply read_loop_done
      · rw [hp, hnone]; simp
      · simp [shell.after_read, hp, hnone, hd, hlast]
    · simp [shell.after_read, shell.emit, hp, hnone, hd]
  simp only [shell.append_next_line]
  by_cases hsmall : sh._buffer.write_size < 128
  · simpa [hsmall] using key (sh.grow g) rfl rfl
  · simpa [hsmall] using key sh rfl rfl

/-! ## Statements about the specification -/

/-- C1, reconstruction, on Scenario 1 read from a stream that ends after the line
"1 + 2\n" (the end of a stream shows only when a read runs into it): the engine gets the
six code units, and the `peek()` after them is not the EOF sentinel; it reads
`read_data()[6]` behind the read region, because `append_next_line` took the newline of
the line before for the end of a new line. -/
theorem reconstruction_stream_session (fuel steps : Nat) :
    session stream_prompt (doubling 128) (fuel + 1) (steps + 7)
        (shell.fresh 128 { data := [49, 32, 43, 32, 50, 10], at_eof := false })
      = .error Fault.out_of_bounds ∧
    shell.prompt_for_input stream_prompt (doubling 128) (fuel + 1)
        (shell.fresh 128 { data := [49, 32, 43, 32, 50, 10], at_eof := false })
      = .ok ({ _idx := 0 },
          { _buffer := { read_data := [49, 32, 43, 32, 50, 10], write_size := 122 },
            _prompt := { data := [], at_eof := false },
            trace := [Event.primary_prompt,
              Event.read_line 128 [49, 32, 43, 32, 50, 10], Event.done] }) ∧
    run_ops stream_prompt (doubling 128) (fuel + 1)
        [reader_op.bump, reader_op.bump, reader_op.bump, reader_op.bump, reader_op.bump,
          reader_op.bump, reader_op.eof]
        { _buffer := { read_data := [49, 32, 43, 32, 50, 10], write_size := 122 },
          _prompt := { data := [], at_eof := false },
          trace := [Event.primary_prompt,
            Event.read_line 128 [49, 32, 43, 32, 50, 10], Event.done] }
        { _idx := 0 }
      = .ok ({ _idx := 6 },
          { _buffer := { read_data := [49, 32, 43, 32, 50, 10], write_size := 250 },
            _prompt := { data := [], at_eof := true },
            trace := [Event.primary_prompt,
              Event.read_line 128 [49, 32, 43, 32, 50, 10], Event.done,
              Event.continuation_prompt, Event.grow, Event.read_line 250 [], Event.done] }) :=
  ⟨rfl, rfl, rfl⟩

/-- C2, idempotent EOF, on the input "a\nbc" that ends without a newline: at index 2 the
first `peek()` returns the EOF sentinel, having committed "bc", and the second `peek()`
at the same index returns `'b'`. -/
theorem eof_not_idempotent_after_unterminated_input (fuel : Nat) :
    shell.prompt_for_input stream_prompt (doubling 128) (fuel + 1)
        (shell.fresh 128 { data := [97, 10, 98, 99], at_eof := false })
      = .ok ({ _idx := 0 },
          { _buffer := { read_data := [97, 10], write_size := 126 },
            _prompt := { data := [98, 99], at_eof := false },
            trace := [Event.primary_prompt, Event.read_line 128 [97, 10], Event.done] }) ∧
    input.peek stream_prompt (doubling 128) (fuel + 1)
        { _buffer := { read_data := [97, 10], write_size := 126 },
          _prompt := { data := [98, 99], at_eof := false },
          trace := [Event.primary_prompt, Event.read_line 128 [97, 10], Event.done] }
        { _idx := 2 }
      = .ok (encoding_eof,
          { _buffer := { read_data := [97, 10, 98, 99], write_size := 252 },
            _prompt := { data := [], at_eof := true },
            trace := [Event.primary_prompt, Event.read_line 128 [97, 10], Event.done,
              Event.continuation_prompt, Event.grow, Event.read_line 254 [98, 99],
              Event.eof_prompt] }) ∧
    input.peek stream_prompt (doubling 128) (fuel + 1)
        { _buffer := { read_data := [97, 10, 98, 99], write_size := 252 },
          _prompt := { data := [], at_eof := true },
          trace := [Event.primary_prompt, Event.read_line 128 [97, 10], Event.done,
            Event.continuation_prompt, Event.grow, Event.read_line 254 [98, 99],
            Event.eof_prompt] }
        { _idx := 2 }
      = .ok (to_int_type 98,
          { _buffer := { read_data := [97, 10, 98, 99], write_size := 252 },
            _prompt := { data := [], at_eof := true },
            trace := [Event.primary_prompt, Event.read_line 128 [97, 10], Event.done,
              Event.continuation_prompt, Event.grow, Event.read_line 254 [98, 99],
              Event.eof_prompt] }) :=
  ⟨rfl, rfl, rfl⟩

/-- C3, terminal EOF decision, after the line "a\n" with the prompt still open and no
further data: the read returns 0 and the stream is closed, yet `eof()` returns false
without an EOF prompt, and `peek()` reads `read_data()[2]` behind the read region. -/
theorem terminal_eof_not_reported (fuel : Nat) :
    shell.prompt_for_input stream_prompt (doubling 128) (fuel + 1)
        (shell.fresh 128 { data := [97, 10], at_eof := false })
      = .ok ({ _idx := 0 },
          { _buffer := { read_data := [97, 10], write_size := 126 },
            _prompt := { data := [], at_eof := false },
            trace := [Event.primary_prompt, Event.read_line 128 [97, 10], Event.done] }) ∧
    input.eof stream_prompt (doubling 128) (fuel + 1)
        { _buffer := { read_data := [97, 10], write_size := 126 },
          _prompt := { data := [], at_eof := false },
          trace := [Event.primary_prompt, Event.read_line 128 [97, 10], Event.done] }
        { _idx := 2 }
      = .ok (false,
          { _buffer := { read_data := [97, 10], write_size := 254 },
            _prompt := { data := [], at_eof := true },
            trace := [Event.primary_prompt, Event.read_line 128 [97, 10], Event.done,
              Event.continuation_prompt, Event.grow, Event.read_line 254 [], Event.done] }) ∧
    input.peek stream_prompt (doubling 128) (fuel + 1)
        { _buffer := { read_data := [97, 10], write_size := 126 },
          _prompt := { data := [], at_eof := false },
          trace := [Event.primary_prompt, Event.read_line 128 [97, 10], Event.done] }
        { _idx := 2 }
      = .error Fault.out_of_bounds :=
  ⟨rfl, rfl, rfl⟩

/-- C4, single-line session, on Scenario 1 ("1 + 2\n", then the source closes): the run
does not display primary prompt once, EOF prompt once and no continuation prompt.  Over a
prompt that is closed once the line is read the EOF prompt is not displayed at all; over a
stream that shows its end only to the next read the session does not reach an EOF. -/
theorem single_line_session_eof_prompt_absent :
    (¬ ∃ i sh, session script_prompt (doubling 128) 7 8
          (shell.fresh 128 [49, 32, 43, 32, 50, 10])
        = .ok ([49, 32, 43, 32, 50, 10], i, sh) ∧
      sh.trace.count Event.primary_prompt = 1 ∧ sh.trace.count Event.eof_prompt = 1 ∧
      sh.trace.count Event.continuation_prompt = 0) ∧
    (¬ ∃ i sh, session stream_prompt (doubling 128) 7 8
          (shell.fresh 128 { data := [49, 32, 43, 32, 50, 10], at_eof := false })
        = .ok ([49, 32, 43, 32, 50, 10], i, sh) ∧
      sh.trace.count Event.primary_prompt = 1 ∧ sh.trace.count Event.eof_prompt = 1 ∧
      sh.trace.count Event.continuation_prompt = 0) := by
  constructor
  · rintro ⟨i, sh, hrun, _, heof, _⟩
    have hval : session script_prompt (doubling 128) 7 8
          (shell.fresh 128 [49, 32, 43, 32, 50, 10])
        = .ok ([49, 32, 43, 32, 50, 10], { _idx := 6 },
            { _buffer := { read_data := [49, 32, 43, 32, 50, 10], write_size := 122 },
              _prompt := [],
              trace := [Event.primary_prompt,
                Event.read_line 128 [49, 32, 43, 32, 50, 10], Event.done] }) := rfl
    rw [hval] at hrun
    injection hrun with hrun
    injection hrun with _ hrun
    injection hrun with _ hsh
    subst hsh
    revert heof
    decide
  · rintro ⟨i, sh, hrun, _⟩
    have hval : session stream_prompt (doubling 128) 7 8
          (shell.fresh 128 { data := [49, 32, 43, 32, 50, 10], at_eof := false })
        = .error Fault.out_of_bounds := rfl
    rw [hval] at hrun
    cases hrun

/-- C4 as amended: over a prompt that reports closed as soon as nothing is pending, a
session on a single newline-terminated line gives the engine the code units of the line
in order, then the EOF sentinel, also on a further `peek()`; the only prompt displayed is
the primary prompt, once: no continuation prompt and no EOF prompt. -/
theorem single_line_session {σ : Type} {P : Prompt σ} {pending : σ → List char_type}
    (hP : Contract P pending) (hclosed : ∀ s, pending s = [] → P.is_open s = false)
    {g : Nat → Nat} (hg : ∀ c, c < g c) (fuel steps : Nat) (body : List char_type)
    (sh : shell σ) (hb : newline ∉ body) (hpend : pending sh._prompt = body ++ [newline])
    (hfuel : body.length < fuel) (hsteps : body.length + 1 < steps) :
    ∃ sh1, session P g fuel steps sh
        = .ok ((body ++ [newline]).map to_int_type, { _idx := body.length + 1 }, sh1) ∧
      input.peek P g fuel sh1 { _idx := body.length + 1 } = .ok (encoding_eof, sh1) ∧
      sh1._buffer.read_data = body ++ [newline] ∧
      prompts sh1.trace = prompts sh.trace ++ [Event.primary_prompt] := by
  obtain ⟨sh1, evs, hrun, hdata, hp, htrace, hev⟩ :=
    prompt_for_input_line hP hg fuel body [] sh hb hpend hfuel
  have hsize : sh1._buffer.read_size = body.length + 1 := by
    simp [buffer_builder.read_size, hdata]
  have hdrain := drain_closed P g fuel sh1 (hclosed _ hp) steps { _idx := 0 }
    (Nat.zero_le _) (by rw [hsize]; simpa using hsteps)
  refine ⟨sh1, ?_, ?_, hdata, ?_⟩
  · simp only [session, hrun, hdrain, hsize, hdata, List.drop_zero]
  · exact peek_closed P g fuel sh1 { _idx := body.length + 1 } hsize.symm (hclosed _ hp)
  · rw [htrace, prompts_append]
    have : prompts (Event.primary_prompt :: evs) = [Event.primary_prompt] := by
      have hq := prompts_quiet evs hev
      unfold prompts at hq ⊢
      simp [List.filter_cons, Event.is_prompt, hq]
    rw [this]

/-- A session of C4 as amended that exists: Scenario 1 over a script. -/
theorem single_line_session_witness :
    ∃ sh1, session script_prompt (doubling 128) 7 8 (shell.fresh 128 [49, 32, 43, 32, 50, 10])
        = .ok (([49, 32, 43, 32, 50] ++ [newline]).map to_int_type,
            { _idx := [49, 32, 43, 32, 50].length + 1 }, sh1) ∧
      input.peek script_prompt (doubling 128) 7 sh1 { _idx := [49, 32, 43, 32, 50].length + 1 }
        = .ok (encoding_eof, sh1) ∧
      sh1._buffer.read_data = [49, 32, 43, 32, 50] ++ [newline] ∧
      prompts sh1.trace
        = prompts (shell.fresh 128 [49, 32, 43, 32, 50, 10]).trace ++ [Event.primary_prompt] :=
  single_line_session script_prompt_contract (fun s hs => by subst hs; rfl)
    (doubling_enlarges 128 (by decide)) 7 8 [49, 32, 43, 32, 50]
    (shell.fresh 128 [49, 32, 43, 32, 50, 10]) (by decide) rfl (by decide) (by decide)

/-- C5, seamless continuation: at the end of the read region, with a further line
pending on a prompt that follows the contract, `peek()` displays the continuation prompt
and no other prompt, returns the first code unit of the line, and leaves the read region
extended by exactly the line. -/
theorem peek_seamless_continuation {σ : Type} {P : Prompt σ} {pending : σ → List char_type}
    (hP : Contract P pending) {g : Nat → Nat} (hg : ∀ c, c < g c) (fuel : Nat)
    (body rest : List char_type) (sh : shell σ) (i : input) (hb : newline ∉ body)
    (hidx : i._idx = sh._buffer.read_size)
    (hpend : pending sh._prompt = body ++ newline :: rest) (hfuel : body.length < fuel) :
    ∃ sh1 evs,
      input.peek P g fuel sh i
        = .ok (to_int_type ((body ++ [newline]).head (by simp)), sh1) ∧
      sh1._buffer.read_data = sh._buffer.read_data ++ (body ++ [newline]) ∧
      sh1.trace = sh.trace ++ Event.continuation_prompt :: evs ∧
      (∀ e ∈ evs, Event.is_prompt e = false) ∧
      prompts sh1.trace = prompts sh.trace ++ [Event.continuation_prompt] := by
  have hopen : P.is_open sh._prompt = true := hP.open_pending _ (by rw [hpend]; simp)
  obtain ⟨sh1, evs, hrun, hdata, _, htrace, hev, _⟩ :=
    append_next_line_line hP hg fuel body rest (sh.emit Event.continuation_prompt) hb
      (by simpa [shell.emit] using hpend) hfuel
  have hdata2 : sh1._buffer.read_data = sh._buffer.read_data ++ (body ++ [newline]) := by
    simpa [shell.emit] using hdata
  have htrace2 : sh1.trace = sh.trace ++ Event.continuation_prompt :: evs := by
    simpa [shell.emit] using htrace
  have hget : sh1._buffer.read_data[i._idx]? = some ((body ++ [newline]).head (by simp)) := by
    rw [hdata2, hidx, buffer_builder.read_size, List.getElem?_append_right (Nat.le_refl _),
      Nat.sub_self]
    cases body <;> simp
  have heof : input.eof P g fuel sh i = .ok (false, sh1) := by
    simp [input.eof, hidx, hopen, hrun]
  refine ⟨sh1, evs, ?_, hdata2, htrace2, hev, ?_⟩
  · simp [input.peek, heof, buffer_builder.read_at, hget]
  · rw [htrace2, prompts_append]
    have hq := prompts_quiet evs hev
    unfold prompts at hq ⊢
    simp [List.filter_cons, Event.is_prompt, hq]

/-- A continuation of C5 that exists: after "a\n", the line "bc\n" is pending. -/
theorem peek_seamless_continuation_witness :
    ∃ sh1 evs,
      input.peek script_prompt (doubling 128) 3
          { _buffer := { read_data := [97, 10], write_size := 126 },
            _prompt := [98, 99, 10, 100],
            trace := [Event.primary_prompt, Event.read_line 128 [97, 10], Event.done] }
          { _idx := 2 }
        = .ok (to_int_type (([98, 99] ++ [newline]).head (by simp)), sh1) ∧
      sh1._buffer.read_data = [97, 10] ++ ([98, 99] ++ [newline]) ∧
      sh1.trace = [Event.primary_prompt, Event.read_line 128 [97, 10], Event.done]
        ++ Event.continuation_prompt :: evs ∧
      (∀ e ∈ evs, Event.is_prompt e = false) ∧
      prompts sh1.trace
        = prompts [Event.primary_prompt, Event.read_line 128 [97, 10], Event.done]
          ++ [Event.continuation_prompt] :=
  peek_seamless_continuation script_prompt_contract (doubling_enlarges 128 (by decide)) 3
    [98, 99] [100]
    { _buffer := { read_data := [97, 10], write_size := 126 },
      _prompt := [98, 99, 10, 100],
      trace := [Event.primary_prompt, Event.read_line 128 [97, 10], Event.done] }
    { _idx := 2 } (by decide) rfl rfl (by decide)

/-- C6, cursor stability: `grow()` keeps the read region, `append_next_line` only extends
it whether it returns true or false, and so after any calls of `peek()`, `eof()` and
`bump()` a cursor taken inside the read region still designates the same code unit. -/
theorem cursor_stable {σ : Type} (P : Prompt σ) (g : Nat → Nat) (fuel : Nat)
    (ops : List reader_op) (sh : shell σ) (i i1 : input) (sh1 : shell σ)
    (hin : i.cur < sh._buffer.read_size)
    (hrun : run_ops P g fuel ops sh i = .ok (i1, sh1)) :
    sh._buffer.read_data <+: sh1._buffer.read_data ∧
    sh1._buffer.read_at i.cur = sh._buffer.read_at i.cur ∧
    (sh.grow g)._buffer.read_data = sh._buffer.read_data ∧
    (∀ r sh2, shell.append_next_line P g fuel sh = .ok (r, sh2) →
      sh._buffer.read_data <+: sh2._buffer.read_data) := by
  have hext := run_ops_extends P g fuel ops sh i i1 sh1 hrun
  refine ⟨hext, ?_, rfl, ?_⟩
  · obtain ⟨t, ht⟩ := hext
    have hlt : i.cur < sh._buffer.read_data.length := hin
    simp only [buffer_builder.read_at, ← ht, List.getElem?_append_left hlt]
  · intro r sh2 h
    obtain ⟨evs, _, _, hd⟩ := append_next_line_frame P g fuel sh r sh2 h
    rw [hd]
    exact List.prefix_append _ _

/-- A run for C6 in which the buffer grows under a cursor: capacity 4, a second line of
six code units. -/
theorem cursor_stable_witness :
    ([97, 10] : List char_type) <+: [97, 10, 98, 99, 100, 101, 102, 10] ∧
    buffer_builder.read_at { read_data := [97, 10, 98, 99, 100, 101, 102, 10], write_size := 0 }
        (input.cur { _idx := 0 })
      = buffer_builder.read_at { read_data := [97, 10], write_size := 2 }
        (input.cur { _idx := 0 }) :=
  have h := cursor_stable script_prompt (doubling 4) 9
    [reader_op.peek, reader_op.bump, reader_op.peek, reader_op.bump, reader_op.peek,
      reader_op.bump, reader_op.peek]
    { _buffer := { read_data := [97, 10], write_size := 2 },
      _prompt := [98, 99, 100, 101, 102, 10], trace := [] }
    { _idx := 0 } { _idx := 3 }
    { _buffer := { read_data := [97, 10, 98, 99, 100, 101, 102, 10], write_size := 0 },
      _prompt := [],
      trace := [Event.continuation_prompt, Event.grow,
        Event.read_line 6 [98, 99, 100, 101, 102, 10], Event.done] }
    (by decide) rfl
  ⟨h.1, h.2.1⟩

/-- C7, growth correctness: over a prompt that follows the contract, a pending line longer
than the write capacity at the call makes `append_next_line` grow the buffer at least once
and return true, with the read region extended by the whole line, newline included. -/
theorem append_next_line_long_line {σ : Type} {P : Prompt σ} {pending : σ → List char_type}
    (hP : Contract P pending) {g : Nat → Nat} (hg : ∀ c, c < g c) (fuel : Nat)
    (line rest : List char_type) (sh : shell σ) (hline : IsLine line)
    (hpend : pending sh._prompt = line ++ rest)
    (hlong : sh._buffer.write_size < line.length) (hfuel : line.length ≤ fuel) :
    ∃ sh1, shell.append_next_line P g fuel sh = .ok (true, sh1) ∧
      sh1._buffer.read_data = sh._buffer.read_data ++ line ∧
      grows sh.trace < grows sh1.trace := by
  obtain ⟨body, hb, rfl⟩ := hline
  have hlen : (body ++ [newline]).length = body.length + 1 := by simp
  rw [hlen] at hlong hfuel
  obtain ⟨sh1, evs, hrun, hdata, _, htrace, _, hgrow⟩ :=
    append_next_line_line hP hg fuel body rest sh hb (by simpa using hpend) (by omega)
  refine ⟨sh1, hrun, hdata, ?_⟩
  rw [htrace, grows_append]
  have := grows_pos_of_mem evs (hgrow (by omega))
  omega

theorem replicate_line_length (n : Nat) (c : char_type) :
    (List.replicate n c ++ [newline]).length = n + 1 := by
  rw [List.length_append, List.length_replicate, List.length_singleton]

set_option maxRecDepth 100000 in
/-- Scenario 2: a new shell of capacity 128 under the doubling policy reads a line of 300
code units and its newline with two calls of `grow()`. -/
theorem scenario_long_line :
    shell.append_next_line script_prompt (doubling 128) 301
        (shell.fresh 128 (List.replicate 300 97 ++ [newline]))
      = .ok (true,
          { _buffer := { read_data := List.replicate 300 97 ++ [newline], write_size := 211 },
            _prompt := [],
            trace := [Event.read_line 128 (List.replicate 128 97), Event.grow,
              Event.read_line 128 (List.replicate 128 97), Event.grow,
              Event.read_line 256 (List.replicate 44 97 ++ [newline]), Event.done] }) := by
  rfl

/-- Scenario 2 as an instance of C7: the line of 300 code units and its newline, read by a
new shell of capacity 128; the read region has exactly 301 code units and the buffer was
grown twice. -/
theorem append_next_line_long_line_witness :
    (∃ sh1, shell.append_next_line script_prompt (doubling 128) 301
          (shell.fresh 128 (List.replicate 300 97 ++ [newline])) = .ok (true, sh1) ∧
        sh1._buffer.read_data
          = (shell.fresh 128 (List.replicate 300 97 ++ [newline]))._buffer.read_data
            ++ (List.replicate 300 97 ++ [newline]) ∧
        grows (shell.fresh 128 (List.replicate 300 97 ++ [newline])).trace < grows sh1.trace) ∧
    (∃ sh1, shell.append_next_line script_prompt (doubling 128) 301
          (shell.fresh 128 (List.replicate 300 97 ++ [newline])) = .ok (true, sh1) ∧
        sh1._buffer.read_data.length = 301 ∧ grows sh1.trace = 2) :=
  ⟨append_next_line_long_line script_prompt_contract (doubling_enlarges 128 (by decide)) 301
      (List.replicate 300 97 ++ [newline]) []
      (shell.fresh 128 (List.replicate 300 97 ++ [newline]))
      ⟨List.replicate 300 97,
        fun h => absurd (List.eq_of_mem_replicate h) (by decide), rfl⟩
      (List.append_nil _).symm
      (by rw [replicate_line_length]; exact (by decide : 128 < 300 + 1))
      (by rw [replicate_line_length]),
    ⟨_, scenario_long_line, replicate_line_length 300 97, by decide⟩⟩

/-- A cycle whose first read stores nothing inspects `write_data()[-1]` with an empty read
region. -/
theorem prompt_for_input_nothing {σ : Type} (P : Prompt σ) (g : Nat → Nat) (fuel : Nat)
    (sh : shell σ) (h : ∀ n, (P.read_line sh._prompt n).1 = []) :
    shell.prompt_for_input P g (fuel + 1) sh = .error Fault.out_of_bounds := by
  have key : ∀ s : shell σ, s._prompt = sh._prompt → s._buffer.read_data = [] →
      shell.read_loop P g (fuel + 1) s = .error Fault.out_of_bounds := by
    intro s hp hd
    apply read_loop_nothing
    · rw [hp, h]; simp
    · simp [shell.after_read, hd, hp, h]
  simp only [shell.prompt_for_input, shell.append_next_line]
  rw [key]
  · split <;> rfl
  · split <;> rfl

/-- Wherever the loop returns without inspecting a code unit in front of the storage, the
loop in which that inspection yields a value returns the same. -/
theorem read_loop_stray_of_ok {σ : Type} (P : Prompt σ) (g : Nat → Nat) (stray : char_type) :
    ∀ (fuel : Nat) (sh : shell σ) (res : Bool × shell σ),
      shell.read_loop P g fuel sh = .ok res →
      shell.read_loop_stray P g stray fuel sh = .ok res := by
  intro fuel
  induction fuel with
  | zero => intro sh res h; simp [shell.read_loop] at h
  | succ fuel ih =>
    intro sh res h
    by_cases hfit : (P.read_line sh._prompt sh._buffer.write_size).1.length
        ≤ sh._buffer.write_size
    · cases hlast : (sh._buffer.read_data
          ++ (P.read_line sh._prompt sh._buffer.write_size).1).getLast? with
      | none =>
        simp [shell.read_loop, buffer_builder.commit, buffer_builder.last_committed, hfit,
          hlast] at h
      | some c =>
        simp only [shell.read_loop, buffer_builder.commit, buffer_builder.last_committed,
          hfit, if_true, hlast] at h
        simp only [shell.read_loop_stray, buffer_builder.commit,
          buffer_builder.last_committed_or, hfit, if_true, hlast]
        by_cases hc : c = newline
        · simpa only [hc, if_true] using h
        · simp only [hc, if_false] at h ⊢
          by_cases hshort : (P.read_line sh._prompt sh._buffer.write_size).1.length
              < sh._buffer.write_size
          · simpa only [hshort, if_true] using h
          · simp only [hshort, if_false] at h ⊢
            exact ih _ res h
    · simp [shell.read_loop, buffer_builder.commit, hfit] at h

/-- The same for `prompt_for_input`. -/
theorem prompt_for_input_stray_of_ok {σ : Type} (P : Prompt σ) (g : Nat → Nat)
    (stray : char_type) (fuel : Nat) (sh : shell σ) (res : input × shell σ)
    (h : shell.prompt_for_input P g fuel sh = .ok res) :
    shell.prompt_for_input_stray P g stray fuel sh = .ok res := by
  simp only [shell.prompt_for_input, shell.append_next_line] at h
  simp only [shell.prompt_for_input_stray, shell.append_next_line_stray]
  split at h
  · simp at h
  · rename_i sh2 happ
    rw [read_loop_stray_of_ok P g stray fuel _ _ happ]
    exact h
  · rename_i sh2 happ
    rw [read_loop_stray_of_ok P g stray fuel _ _ happ]
    exact h

/-- C9, a new cycle: whatever the state before, a `prompt_for_input()` that returns has
cleared the buffer, displayed the primary prompt once and before any read, called
`append_next_line` once, displayed the EOF prompt exactly when that call returned false,
and returns a reader at index 0 over a read region that holds only what the reads of the
cycle stored.  Over a prompt that follows the contract it does return: with a line pending
the append succeeds, the read region is exactly that line and no EOF prompt is displayed;
with pending input that ends before a newline the append fails and the EOF prompt is
displayed, last. -/
theorem prompt_for_input_fresh_cycle {σ : Type} {P : Prompt σ} {pending : σ → List char_type}
    (hP : Contract P pending) {g : Nat → Nat} (hg : ∀ c, c < g c) (fuel : Nat)
    (sh : shell σ) :
    (∀ i sh1, shell.prompt_for_input P g fuel sh = .ok (i, sh1) →
      i._idx = 0 ∧ ∃ r sh2 evs,
        shell.append_next_line P g fuel
            { _buffer := { read_data := [], write_size := sh._buffer.capacity },
              _prompt := sh._prompt, trace := sh.trace ++ [Event.primary_prompt] }
          = .ok (r, sh2) ∧
        sh2.trace = sh.trace ++ Event.primary_prompt :: evs ∧
        (∀ e ∈ evs, Event.is_prompt e = false) ∧
        sh1.trace = sh2.trace ++ (if r then [] else [Event.eof_prompt]) ∧
        sh1._buffer.read_data = delivered evs) ∧
    (∀ body rest, newline ∉ body → pending sh._prompt = body ++ newline :: rest →
      body.length < fuel →
      ∃ sh1 evs, shell.prompt_for_input P g fuel sh = .ok ({ _idx := 0 }, sh1) ∧
        sh1._buffer.read_data = body ++ [newline] ∧ pending sh1._prompt = rest ∧
        sh1.trace = sh.trace ++ Event.primary_prompt :: evs ∧
        (∀ e ∈ evs, Event.is_prompt e = false)) ∧
    (∀ part, part ≠ [] → newline ∉ part → pending sh._prompt = part → part.length < fuel →
      ∃ sh1 evs, shell.prompt_for_input P g fuel sh = .ok ({ _idx := 0 }, sh1) ∧
        sh1._buffer.read_data = part ∧
        sh1.trace = sh.trace ++ Event.primary_prompt :: (evs ++ [Event.eof_prompt]) ∧
        (∀ e ∈ evs, Event.is_prompt e = false)) :=
  ⟨fun i sh1 h => prompt_for_input_frame P g fuel sh i sh1 h,
    fun body rest hb hpend hfuel => prompt_for_input_line hP hg fuel body rest sh hb hpend hfuel,
    fun part hne hb hpend hfuel =>
      prompt_for_input_unterminated hP hg fuel part sh hne hb hpend hfuel⟩

/-- Two cycles for C9 that start with the line "a\n" of an earlier cycle in the buffer:
one over the pending line "bc\n", one over the pending input "bc" that ends there. -/
theorem prompt_for_input_fresh_cycle_witness :
    (∃ sh1 evs, shell.prompt_for_input script_prompt (doubling 128) 3
          { _buffer := { read_data := [97, 10], write_size := 126 },
            _prompt := [98, 99, 10, 100],
            trace := [Event.primary_prompt, Event.read_line 128 [97, 10], Event.done] }
        = .ok ({ _idx := 0 }, sh1) ∧
      sh1._buffer.read_data = [98, 99] ++ [newline] ∧ id sh1._prompt = [100] ∧
      sh1.trace = [Event.primary_prompt, Event.read_line 128 [97, 10], Event.done]
        ++ Event.primary_prompt :: evs ∧
      (∀ e ∈ evs, Event.is_prompt e = false)) ∧
    (∃ sh1 evs, shell.prompt_for_input script_prompt (doubling 128) 3
          { _buffer := { read_data := [97, 10], write_size := 126 },
            _prompt := [98, 99],
            trace := [Event.primary_prompt, Event.read_line 128 [97, 10], Event.done] }
        = .ok ({ _idx := 0 }, sh1) ∧
      sh1._buffer.read_data = [98, 99] ∧
      sh1.trace = [Event.primary_prompt, Event.read_line 128 [97, 10], Event.done]
        ++ Event.primary_prompt :: (evs ++ [Event.eof_prompt]) ∧
      (∀ e ∈ evs, Event.is_prompt e = false)) :=
  ⟨(prompt_for_input_fresh_cycle script_prompt_contract (doubling_enlarges 128 (by decide)) 3
      { _buffer := { read_data := [97, 10], write_size := 126 },
        _prompt := [98, 99, 10, 100],
        trace := [Event.primary_prompt, Event.read_line 128 [97, 10], Event.done] }).2.1
      [98, 99] [100] (by decide) rfl (by decide),
    (prompt_for_input_fresh_cycle script_prompt_contract (doubling_enlarges 128 (by decide)) 3
      { _buffer := { read_data := [97, 10], write_size := 126 },
        _prompt := [98, 99],
        trace := [Event.primary_prompt, Event.read_line 128 [97, 10], Event.done] }).2.2
      [98, 99] (by decide) (by decide) rfl (by decide)⟩

/-- C10, the result of `append_next_line`, in the state after the line "a\n" with the
prompt still open and nothing more to read: the read stores nothing, the read region is
unchanged, and `append_next_line` returns true. -/
theorem append_next_line_true_without_data (fuel : Nat) :
    shell.append_next_line stream_prompt (doubling 128) (fuel + 1)
        { _buffer := { read_data := [97, 10], write_size := 126 },
          _prompt := { data := [], at_eof := false },
          trace := [Event.primary_prompt, Event.read_line 128 [97, 10], Event.done] }
      = .ok (true,
          { _buffer := { read_data := [97, 10], write_size := 254 },
            _prompt := { data := [], at_eof := true },
            trace := [Event.primary_prompt, Event.read_line 128 [97, 10], Event.done,
              Event.grow, Event.read_line 254 [], Event.done] }) ∧
    shell.append_next_line stream_prompt (doubling 128) (fuel + 1)
        { _buffer := { read_data := [97, 10], write_size := 126 },
          _prompt := { data := [98, 99], at_eof := false },
          trace := [Event.primary_prompt, Event.read_line 128 [97, 10], Event.done] }
      = .ok (false,
          { _buffer := { read_data := [97, 10, 98, 99], write_size := 252 },
            _prompt := { data := [], at_eof := true },
            trace := [Event.primary_prompt, Event.read_line 128 [97, 10], Event.done,
              Event.grow, Event.read_line 254 [98, 99]] }) :=
  ⟨rfl, rfl⟩

/-! ## Further statements about the specification -/

/-- C12, `bump()` after EOF, at the end of the read region "a\n" of a closed prompt:
`peek()` returns the EOF sentinel, and the `bump()` after it does not fail and advances the
index from 2 to 3. -/
theorem bump_after_eof_advances :
    input.peek script_prompt (doubling 128) 1
        { _buffer := { read_data := [97, 10], write_size := 126 }, _prompt := [],
          trace := [Event.primary_prompt, Event.read_line 128 [97, 10], Event.done] }
        { _idx := 2 }
      = .ok (encoding_eof,
          { _buffer := { read_data := [97, 10], write_size := 126 }, _prompt := [],
            trace := [Event.primary_prompt, Event.read_line 128 [97, 10], Event.done] }) ∧
    run_ops script_prompt (doubling 128) 1 [reader_op.peek, reader_op.bump]
        { _buffer := { read_data := [97, 10], write_size := 126 }, _prompt := [],
          trace := [Event.primary_prompt, Event.read_line 128 [97, 10], Event.done] }
        { _idx := 2 }
      = .ok ({ _idx := 3 },
          { _buffer := { read_data := [97, 10], write_size := 126 }, _prompt := [],
            trace := [Event.primary_prompt, Event.read_line 128 [97, 10], Event.done] }) ∧
    input.bump { _idx := 2 } ≠ { _idx := 2 } :=
  ⟨rfl, rfl, by decide⟩

/-- C12 as amended: `bump()` makes no check.  In every state of the reader and of the
shell, whatever the `peek()` before it returned, it advances the index by exactly one,
does not fail and changes nothing else. -/
theorem bump_advances_by_one {σ : Type} (P : Prompt σ) (g : Nat → Nat) (fuel : Nat)
    (sh : shell σ) (i : input) :
    (input.bump i)._idx = i._idx + 1 ∧ input.cur (input.bump i) = input.cur i + 1 ∧
    run_ops P g fuel [reader_op.bump] sh i = .ok ({ _idx := i._idx + 1 }, sh) :=
  ⟨rfl, rfl, rfl⟩

/-- C13, growth threshold: on a new shell whose buffer has a capacity of at least 128, a
pending line of fewer than 128 code units before its newline is read by
`append_next_line` with one call of the read callback and no `grow()`. -/
theorem append_next_line_short_line {σ : Type} {P : Prompt σ} {pending : σ → List char_type}
    (hP : Contract P pending) (g : Nat → Nat) (fuel capacity : Nat) (p : σ)
    (body rest : List char_type) (hb : newline ∉ body)
    (hpend : pending p = body ++ newline :: rest) (hshort : body.length < 128)
    (hcap : 128 ≤ capacity) :
    ∃ sh1, shell.append_next_line P g (fuel + 1) (shell.fresh capacity p) = .ok (true, sh1) ∧
      sh1._buffer.read_data = body ++ [newline] ∧
      sh1.trace = [Event.read_line capacity (body ++ [newline]), Event.done] ∧
      read_sizes sh1.trace = [capacity] ∧ grows sh1.trace = 0 := by
  have hchunk : (P.read_line p capacity).1 = body ++ [newline] := by
    rw [hP.read_chunk, hpend, take_line_fits body rest capacity hb (by omega)]
  have hbig : ¬ (shell.fresh capacity p)._buffer.write_size < 128 := by
    simp only [shell.fresh]; omega
  have hrun : shell.read_loop P g (fuel + 1) (shell.fresh capacity p)
      = .ok (true, ((shell.fresh capacity p).after_read P).emit Event.done) := by
    apply read_loop_done
    · simp only [shell.fresh, hchunk, List.length_append, List.length_singleton]; omega
    · simp [shell.after_read, shell.fresh, hchunk]
  refine ⟨((shell.fresh capacity p).after_read P).emit Event.done, ?_, ?_, ?_, ?_, ?_⟩
  · simp only [shell.append_next_line, hbig, if_false, hrun]
  · simp [shell.after_read, shell.fresh, shell.emit, hchunk]
  · simp [shell.after_read, shell.fresh, shell.emit, hchunk]
  · simp [shell.after_read, shell.fresh, shell.emit, read_sizes]
  · simp [shell.after_read, shell.fresh, shell.emit, grows]

/-- A line for C13: "1 + 2\n" on a new shell of capacity 128. -/
theorem append_next_line_short_line_witness :
    ∃ sh1, shell.append_next_line script_prompt (doubling 128) (0 + 1)
          (shell.fresh 128 [49, 32, 43, 32, 50, 10]) = .ok (true, sh1) ∧
      sh1._buffer.read_data = [49, 32, 43, 32, 50] ++ [newline] ∧
      sh1.trace = [Event.read_line 128 ([49, 32, 43, 32, 50] ++ [newline]), Event.done] ∧
      read_sizes sh1.trace = [128] ∧ grows sh1.trace = 0 :=
  append_next_line_short_line script_prompt_contract (doubling 128) 0 128
    [49, 32, 43, 32, 50, 10] [49, 32, 43, 32, 50] [] (by decide) rfl (by decide) (by decide)

/-- C18, `peek()` inside the read region: with the index below `read_size()`, `peek()`
returns the code unit at the index as `to_int_type` gives it and `eof()` returns false; the
shell is the same afterwards, so no prompt, no read, no `grow()`, and the same read
region; the reader is not changed by either call. -/
theorem peek_inside_is_pure {σ : Type} (P : Prompt σ) (g : Nat → Nat) (fuel : Nat)
    (sh : shell σ) (i : input) (h : i._idx < sh._buffer.read_size) :
    ∃ c, sh._buffer.read_data[i._idx]? = some c ∧
      input.peek P g fuel sh i = .ok (to_int_type c, sh) ∧
      input.eof P g fuel sh i = .ok (false, sh) := by
  have hlt : i._idx < sh._buffer.read_data.length := h
  exact ⟨sh._buffer.read_data[i._idx], List.getElem?_eq_getElem hlt,
    peek_inside P g fuel sh i _ (List.getElem?_eq_getElem hlt), eof_inside P g fuel sh i h⟩

/-- A state for C18: index 1 in the read region "a\n", with more input pending. -/
theorem peek_inside_is_pure_witness :
    ∃ c, ([97, 10] : List char_type)[1]? = some c ∧
      input.peek stream_prompt (doubling 128) 0
          { _buffer := { read_data := [97, 10], write_size := 126 },
            _prompt := { data := [98, 10], at_eof := false }, trace := [] } { _idx := 1 }
        = .ok (to_int_type c,
            { _buffer := { read_data := [97, 10], write_size := 126 },
              _prompt := { data := [98, 10], at_eof := false }, trace := [] }) ∧
      input.eof stream_prompt (doubling 128) 0
          { _buffer := { read_data := [97, 10], write_size := 126 },
            _prompt := { data := [98, 10], at_eof := false }, trace := [] } { _idx := 1 }
        = .ok (false,
            { _buffer := { read_data := [97, 10], write_size := 126 },
              _prompt := { data := [98, 10], at_eof := false }, trace := [] }) :=
  peek_inside_is_pure stream_prompt (doubling 128) 0
    { _buffer := { read_data := [97, 10], write_size := 126 },
      _prompt := { data := [98, 10], at_eof := false }, trace := [] } { _idx := 1 }
    (by decide)

/-! ## The writer -/

theorem take_strlen (str : List char_type) :
    str.take (strlen str) = str.takeWhile (fun c => c != 0) := by
  unfold strlen
  induction str with
  | nil => rfl
  | cons c cs ih =>
    by_cases h : (c != 0) = true
    · simp [List.takeWhile_cons, h, ih]
    · simp [List.takeWhile_cons, h]

theorem range_filterMap_getElem? (xs : List char_type) (start n : Nat) :
    (List.range n).filterMap (fun k => xs[start + k]?) = (xs.drop start).take n := by
  induction n with
  | zero => simp
  | succ n ih =>
    rw [List.range_succ, List.filterMap_append, ih, List.take_succ, List.getElem?_drop]
    cases h : xs[start + n]? <;> simp [List.filterMap_cons, h]

/-- Each overload hands the callback the bytes that the specification names. -/
theorem writer_apply_bytes {τ : Type} (W : prompt_writer τ) (b : buffer_builder) (w : τ)
    (c : writer_call) : writer_apply W b w c = W.write w (spec_bytes b c) := by
  cases c with
  | span str length => rfl
  | str str => simp only [writer_apply, spec_bytes, take_strlen]
  | unit c => rfl
  | lexeme l => simp only [writer_apply, spec_bytes, range_filterMap_getElem?]

theorem foldl_writer_apply {τ : Type} (W : prompt_writer τ) (b : buffer_builder)
    (calls : List writer_call) (w : τ) :
    calls.foldl (writer_apply W b) w = (calls.map (spec_bytes b)).foldl W.write w := by
  induction calls generalizing w with
  | nil => rfl
  | cons c cs ih => simp only [List.foldl_cons, List.map_cons, writer_apply_bytes, ih]

theorem foldl_recording (bytes : List (List char_type)) (w : List write_event) :
    bytes.foldl recording_writer.write w = w ++ bytes.map write_event.write := by
  induction bytes generalizing w with
  | nil => simp
  | cons x xs ih =>
    rw [List.foldl_cons, ih]
    simp [recording_writer]

/-- C14, the scoped writer: the calls made on the writer of `write_message` reach the
write callback of the prompt one for one and in order, each with the bytes of its
argument, and `done()` follows the last of them once.  For every callback the final state
is `done` after the writes; a recording callback has seen exactly these writes and one
`done`. -/
theorem write_message_forwards {τ : Type} (W : prompt_writer τ) (b : buffer_builder) (w : τ)
    (calls : List writer_call) :
    write_message W b w calls = W.done ((calls.map (spec_bytes b)).foldl W.write w) ∧
    write_message recording_writer b [] calls
      = calls.map (fun c => write_event.write (spec_bytes b c)) ++ [write_event.done] ∧
    (write_message recording_writer b [] calls).count write_event.done = 1 := by
  have hrec : write_message recording_writer b [] calls
      = calls.map (fun c => write_event.write (spec_bytes b c)) ++ [write_event.done] := by
    simp only [write_message, foldl_writer_apply, foldl_recording, List.nil_append,
      List.map_map]
    rfl
  refine ⟨?_, hrec, ?_⟩
  · simp only [write_message, foldl_writer_apply]
  · rw [hrec, List.count_append]
    have : (calls.map (fun c => write_event.write (spec_bytes b c))).count write_event.done
        = 0 := by
      rw [List.count_eq_zero]
      intro hm
      obtain ⟨c, _, hc⟩ := List.mem_map.mp hm
      cases hc
    rw [this]
    rfl

/-- Scenario 5: "error", then the lexeme "+ 2" of the buffer "1 + 2\n", then the character
"!": three writes with these bytes, then one `done`. -/
theorem scenario_write_message :
    write_message recording_writer { read_data := [49, 32, 43, 32, 50, 10], write_size := 122 }
        []
        [writer_call.str [101, 114, 114, 111, 114, 0], writer_call.lexeme { _begin := 2, _end := 5 },
          writer_call.unit 33]
      = [write_event.write [101, 114, 114, 111, 114], write_event.write [43, 32, 50],
          write_event.write [33], write_event.done] := by
  rfl

/-! ## The capacity passed to the read callback -/

theorem read_sizes_append (t u : List Event) :
    read_sizes (t ++ u) = read_sizes t ++ read_sizes u := by
  induction t with
  | nil => rfl
  | cons e t ih => cases e <;> simp [read_sizes, ih]

/-- With at least 128 code units of write capacity at its start, the loop passes at least
128 to every read of a run that returns, and the capacity of the buffer does not fall
below 128. -/
theorem read_loop_read_sizes {σ : Type} (P : Prompt σ) (g : Nat → Nat)
    (hg : ∀ c, 128 ≤ c → c + 128 ≤ g c) :
    ∀ (fuel : Nat) (sh : shell σ) (r : Bool) (sh1 : shell σ),
      128 ≤ sh._buffer.write_size → shell.read_loop P g fuel sh = .ok (r, sh1) →
      ∃ evs, sh1.trace = sh.trace ++ evs ∧ (∀ n ∈ read_sizes evs, 128 ≤ n) ∧
        128 ≤ sh1._buffer.capacity := by
  intro fuel
  induction fuel with
  | zero => intro sh r sh1 _ h; simp [shell.read_loop] at h
  | succ fuel ih =>
    intro sh r sh1 hws h
    simp only [shell.read_loop, buffer_builder.commit, buffer_builder.last_committed] at h
    split at h
    · simp at h
    · rename_i b hb
      split at hb
      · rename_i hfit
        injection hb with hb
        subst hb
        split at h
        · simp at h
        · rename_i c hc
          split at h
          · injection h with h
            injection h with hr hs
            subst hs
            refine ⟨[Event.read_line sh._buffer.write_size
              (P.read_line sh._prompt sh._buffer.write_size).1, Event.done], ?_, ?_, ?_⟩
            · simp [shell.emit]
            · intro n hn
              simp [read_sizes] at hn
              omega
            · simp only [shell.emit, buffer_builder.capacity, List.length_append]
              omega
          · split at h
            · split at h
              · simp at h
              · injection h with h
                injection h with hr hs
                subst hs
                refine ⟨[Event.read_line sh._buffer.write_size
                  (P.read_line sh._prompt sh._buffer.write_size).1], ?_, ?_, ?_⟩
                · simp
                · intro n hn
                  simp [read_sizes] at hn
                  omega
                · simp only [buffer_builder.capacity, List.length_append]
                  omega
            · rename_i hfull
              obtain ⟨evs, ht, hev, hcap⟩ := ih _ r sh1 (by
                simp only [shell.grow, buffer_builder.grow, buffer_builder.capacity,
                  List.length_append]
                have := hg (sh._buffer.read_data.length
                  + (P.read_line sh._prompt sh._buffer.write_size).1.length
                  + (sh._buffer.write_size
                    - (P.read_line sh._prompt sh._buffer.write_size).1.length)) (by omega)
                omega) h
              refine ⟨Event.read_line sh._buffer.write_size
                (P.read_line sh._prompt sh._buffer.write_size).1 :: Event.grow :: evs,
                ?_, ?_, hcap⟩
              · rw [ht]; simp [shell.grow]
              · intro n hn
                simp only [read_sizes, List.mem_cons] at hn
                rcases hn with rfl | hn
                · exact hws
                · exact hev n hn
      · simp at hb

/-- The loop of `append_next_line` starts with at least 128 code units of write capacity
when the capacity of the buffer is at least 128 and `grow()` adds at least 128. -/
theorem append_next_line_start_size {σ : Type} (g : Nat → Nat)
    (hg : ∀ c, 128 ≤ c → c + 128 ≤ g c) (sh : shell σ) (hcap : 128 ≤ sh._buffer.capacity) :
    128 ≤ (if sh._buffer.write_size < 128 then sh.grow g else sh)._buffer.write_size := by
  by_cases hsmall : sh._buffer.write_size < 128
  · simp only [hsmall, if_true, shell.grow, buffer_builder.grow]
    have := hg sh._buffer.capacity hcap
    simp only [buffer_builder.capacity] at this hcap ⊢
    omega
  · simp only [hsmall, if_false]
    omega

theorem append_next_line_read_sizes {σ : Type} (P : Prompt σ) (g : Nat → Nat)
    (hg : ∀ c, 128 ≤ c → c + 128 ≤ g c) (fuel : Nat) (sh : shell σ) (r : Bool)
    (sh1 : shell σ) (hcap : 128 ≤ sh._buffer.capacity)
    (h : shell.append_next_line P g fuel sh = .ok (r, sh1)) :
    ∃ evs, sh1.trace = sh.trace ++ evs ∧ (∀ n ∈ read_sizes evs, 128 ≤ n) ∧
      128 ≤ sh1._buffer.capacity := by
  have hstart := append_next_line_start_size g hg sh hcap
  simp only [shell.append_next_line] at h
  obtain ⟨evs, ht, hev, hc⟩ := read_loop_read_sizes P g hg fuel _ r sh1 hstart h
  by_cases hsmall : sh._buffer.write_size < 128
  · simp only [hsmall, if_true] at ht
    refine ⟨Event.grow :: evs, ?_, ?_, hc⟩
    · rw [ht]; simp [shell.grow]
    · intro n hn
      simp only [read_sizes] at hn
      exact hev n hn
  · simp only [hsmall, if_false] at ht
    exact ⟨evs, ht, hev, hc⟩

theorem prompt_for_input_read_sizes {σ : Type} (P : Prompt σ) (g : Nat → Nat)
    (hg : ∀ c, 128 ≤ c → c + 128 ≤ g c) (fuel : Nat) (sh : shell σ) (i : input)
    (sh1 : shell σ) (hcap : 128 ≤ sh._buffer.capacity)
    (h : shell.prompt_for_input P g fuel sh = .ok (i, sh1)) :
    ∃ evs, sh1.trace = sh.trace ++ evs ∧ (∀ n ∈ read_sizes evs, 128 ≤ n) ∧
      128 ≤ sh1._buffer.capacity := by
  have hcap2 : 128 ≤ (({ sh with _buffer := sh._buffer.clear } : shell σ).emit
      Event.primary_prompt)._buffer.capacity := by
    simp only [shell.emit, buffer_builder.clear, buffer_builder.capacity, List.length_nil]
    simp only [buffer_builder.capacity] at hcap
    omega
  simp only [shell.prompt_for_input] at h
  split at h
  · simp at h
  · rename_i sh2 happ
    obtain ⟨evs, ht, hev, hc⟩ := append_next_line_read_sizes P g hg fuel _ true sh2 hcap2 happ
    injection h with h; injection h with _ hs; subst hs
    refine ⟨Event.primary_prompt :: evs, ?_, ?_, hc⟩
    · rw [ht]; simp [shell.emit]
    · intro n hn
      simp only [read_sizes] at hn
      exact hev n hn
  · rename_i sh2 happ
    obtain ⟨evs, ht, hev, hc⟩ := append_next_line_read_sizes P g hg fuel _ false sh2 hcap2 happ
    injection h with h; injection h with _ hs; subst hs
    refine ⟨Event.primary_prompt :: (evs ++ [Event.eof_prompt]), ?_, ?_, ?_⟩
    · simp [shell.emit, ht]
    · intro n hn
      simp only [read_sizes, read_sizes_append, List.append_nil] at hn
      exact hev n hn
    · simpa [shell.emit] using hc

theorem eof_read_sizes {σ : Type} (P : Prompt σ) (g : Nat → Nat)
    (hg : ∀ c, 128 ≤ c → c + 128 ≤ g c) (fuel : Nat) (sh : shell σ) (i : input) (r : Bool)
    (sh1 : shell σ) (hcap : 128 ≤ sh._buffer.capacity)
    (h : input.eof P g fuel sh i = .ok (r, sh1)) :
    ∃ evs, sh1.trace = sh.trace ++ evs ∧ (∀ n ∈ read_sizes evs, 128 ≤ n) ∧
      128 ≤ sh1._buffer.capacity := by
  unfold input.eof at h
  split at h
  · injection h with h; injection h with _ hs; subst hs
    exact ⟨[], by simp, by simp [read_sizes], hcap⟩
  · split at h
    · injection h with h; injection h with _ hs; subst hs
      exact ⟨[], by simp, by simp [read_sizes], hcap⟩
    · split at h
      · simp at h
      · rename_i did sh2 happ
        obtain ⟨evs, ht, hev, hc⟩ :=
          append_next_line_read_sizes P g hg fuel _ did sh2 (by simpa [shell.emit] using hcap)
            happ
        injection h with h; injection h with _ hs; subst hs
        cases did
        · refine ⟨Event.continuation_prompt :: (evs ++ [Event.eof_prompt]), ?_, ?_, ?_⟩
          · simp [shell.emit, ht]
          · intro n hn
            simp only [read_sizes, read_sizes_append, List.append_nil] at hn
            exact hev n hn
          · simpa [shell.emit] using hc
        · refine ⟨Event.continuation_prompt :: evs, ?_, ?_, ?_⟩
          · simp [shell.emit, ht]
          · intro n hn
            simp only [read_sizes] at hn
            exact hev n hn
          · simpa using hc

theorem peek_read_sizes {σ : Type} (P : Prompt σ) (g : Nat → Nat)
    (hg : ∀ c, 128 ≤ c → c + 128 ≤ g c) (fuel : Nat) (sh : shell σ) (i : input)
    (c : int_type) (sh1 : shell σ) (hcap : 128 ≤ sh._buffer.capacity)
    (h : input.peek P g fuel sh i = .ok (c, sh1)) :
    ∃ evs, sh1.trace = sh.trace ++ evs ∧ (∀ n ∈ read_sizes evs, 128 ≤ n) ∧
      128 ≤ sh1._buffer.capacity := by
  unfold input.peek at h
  split at h
  · simp at h
  · rename_i sh2 he
    injection h with h; injection h with _ hs; subst hs
    exact eof_read_sizes P g hg fuel sh i true sh2 hcap he
  · rename_i sh2 he
    split at h
    · simp at h
    · injection h with h; injection h with _ hs; subst hs
      exact eof_read_sizes P g hg fuel sh i false sh2 hcap he

theorem doubling_adds_min (c : Nat) (hc : 128 ≤ c) : c + 128 ≤ doubling 128 c := by
  unfold doubling
  omega

/-- C15, the capacity passed to the read callback: where the buffer has a capacity of at
least 128 and `grow()` adds at least 128 (as doubling does from there), as it is on a new
shell of such a capacity and stays under every call on the shell and its reader,
`append_next_line` passes `write_size()` to the callback and this is at least 128 at the
first iteration and again after the `grow()` of a filled buffer; so it is at every read
of a call that returns, from `prompt_for_input()`, `eof()` or `peek()` alike. -/
theorem read_capacity_at_least_min {σ : Type} (P : Prompt σ) (g : Nat → Nat)
    (hg : ∀ c, 128 ≤ c → c + 128 ≤ g c) (fuel : Nat) (sh : shell σ)
    (hcap : 128 ≤ sh._buffer.capacity) :
    128 ≤ (if sh._buffer.write_size < 128 then sh.grow g else sh)._buffer.write_size ∧
    (∀ s : shell σ, 128 ≤ s._buffer.write_size →
      (P.read_line s._prompt s._buffer.write_size).1.length = s._buffer.write_size →
      128 ≤ ((s.after_read P).grow g)._buffer.write_size) ∧
    (∀ r sh1, shell.append_next_line P g fuel sh = .ok (r, sh1) →
      ∃ evs, sh1.trace = sh.trace ++ evs ∧ (∀ n ∈ read_sizes evs, 128 ≤ n) ∧
        128 ≤ sh1._buffer.capacity) ∧
    (∀ i sh1, shell.prompt_for_input P g fuel sh = .ok (i, sh1) →
      ∃ evs, sh1.trace = sh.trace ++ evs ∧ (∀ n ∈ read_sizes evs, 128 ≤ n) ∧
        128 ≤ sh1._buffer.capacity) ∧
    (∀ i r sh1, input.eof P g fuel sh i = .ok (r, sh1) →
      ∃ evs, sh1.trace = sh.trace ++ evs ∧ (∀ n ∈ read_sizes evs, 128 ≤ n) ∧
        128 ≤ sh1._buffer.capacity) ∧
    (∀ i c sh1, input.peek P g fuel sh i = .ok (c, sh1) →
      ∃ evs, sh1.trace = sh.trace ++ evs ∧ (∀ n ∈ read_sizes evs, 128 ≤ n) ∧
        128 ≤ sh1._buffer.capacity) := by
  refine ⟨append_next_line_start_size g hg sh hcap, ?_,
    fun r sh1 h => append_next_line_read_sizes P g hg fuel sh r sh1 hcap h,
    fun i sh1 h => prompt_for_input_read_sizes P g hg fuel sh i sh1 hcap h,
    fun i r sh1 h => eof_read_sizes P g hg fuel sh i r sh1 hcap h,
    fun i c sh1 h => peek_read_sizes P g hg fuel sh i c sh1 hcap h⟩
  intro s hws hfull
  simp only [shell.grow, buffer_builder.grow, buffer_builder.capacity, shell.after_read,
    List.length_append, hfull]
  have := hg (s._buffer.read_data.length + s._buffer.write_size
    + (s._buffer.write_size - s._buffer.write_size)) (by omega)
  omega

/-- Scenario 2 for C15: the reads of the line of 300 code units on a new shell of capacity
128 are passed 128, 128 and 256. -/
theorem read_capacity_at_least_min_witness :
    (∃ evs, [Event.read_line 128 (List.replicate 128 97), Event.grow,
          Event.read_line 128 (List.replicate 128 97), Event.grow,
          Event.read_line 256 (List.replicate 44 97 ++ [newline]), Event.done]
        = (shell.fresh 128 (List.replicate 300 97 ++ [newline])).trace ++ evs ∧
      (∀ n ∈ read_sizes evs, 128 ≤ n) ∧ 128 ≤ buffer_builder.capacity
        { read_data := List.replicate 300 97 ++ [newline], write_size := 211 }) ∧
    read_sizes [Event.read_line 128 (List.replicate 128 97), Event.grow,
      Event.read_line 128 (List.replicate 128 97), Event.grow,
      Event.read_line 256 (List.replicate 44 97 ++ [newline]), Event.done] = [128, 128, 256] :=
  ⟨(read_capacity_at_least_min script_prompt (doubling 128) doubling_adds_min 301
      (shell.fresh 128 (List.replicate 300 97 ++ [newline])) (by decide)).2.2.1 true
      { _buffer := { read_data := List.replicate 300 97 ++ [newline], write_size := 211 },
        _prompt := [],
        trace := [Event.read_line 128 (List.replicate 128 97), Event.grow,
          Event.read_line 128 (List.replicate 128 97), Event.grow,
          Event.read_line 256 (List.replicate 44 97 ++ [newline]), Event.done] }
      scenario_long_line,
    rfl⟩

/-! ## Termination of the loop of `append_next_line` -/

/-- One iteration either ends the loop with a result that does not depend on the fuel
left, after one read, or it has stored exactly `write_size()` code units and goes on
with the grown buffer. -/
theorem read_loop_iteration {σ : Type} (P : Prompt σ) (g : Nat → Nat) (sh : shell σ) :
    (∃ res : Except Fault (Bool × shell σ),
      (∀ fuel, shell.read_loop P g (fuel + 1) sh = res) ∧ res ≠ .error Fault.out_of_fuel ∧
      (∀ r sh1, res = .ok (r, sh1) →
        sh1.trace = (sh.after_read P).trace ∨
        sh1.trace = (sh.after_read P).trace ++ [Event.done])) ∨
    ((P.read_line sh._prompt sh._buffer.write_size).1.length = sh._buffer.write_size ∧
      ∀ fuel, shell.read_loop P g (fuel + 1) sh
        = shell.read_loop P g fuel ((sh.after_read P).grow g)) := by
  by_cases hfit : (P.read_line sh._prompt sh._buffer.write_size).1.length
      ≤ sh._buffer.write_size
  · cases hlast : (sh.after_read P)._buffer.read_data.getLast? with
    | none =>
      left
      refine ⟨.error Fault.out_of_bounds, fun fuel => ?_, by simp, fun r sh1 h => by cases h⟩
      exact read_loop_nothing P g fuel sh hfit (List.getLast?_eq_none_iff.mp hlast)
    | some c =>
      by_cases hc : c = newline
      · left
        subst hc
        refine ⟨.ok (true, (sh.after_read P).emit Event.done),
          fun fuel => read_loop_done P g fuel sh hfit hlast, by simp, fun r sh1 h => ?_⟩
        injection h with h; injection h with _ hs; subst hs
        right
        rfl
      · by_cases hshort : (P.read_line sh._prompt sh._buffer.write_size).1.length
            < sh._buffer.write_size
        · left
          cases hopen : P.is_open (P.read_line sh._prompt sh._buffer.write_size).2 with
          | false =>
            refine ⟨.ok (false, sh.after_read P),
              fun fuel => read_loop_short P g fuel sh c hshort hlast hc hopen, by simp,
              fun r sh1 h => ?_⟩
            injection h with h; injection h with _ hs; subst hs
            left
            rfl
          | true =>
            refine ⟨.error Fault.assertion, fun fuel => ?_, by simp,
              fun r sh1 h => by cases h⟩
            simp only [shell.after_read] at hlast
            simp [shell.read_loop, buffer_builder.commit, hfit,
              buffer_builder.last_committed, hlast, hc, hshort, hopen]
        · right
          have hfull : (P.read_line sh._prompt sh._buffer.write_size).1.length
              = sh._buffer.write_size := by omega
          exact ⟨hfull, fun fuel => read_loop_more P g fuel sh c hfull hlast hc⟩
  · left
    refine ⟨.error Fault.precondition, fun fuel => ?_, by simp, fun r sh1 h => by cases h⟩
    simp [shell.read_loop, buffer_builder.commit, hfit]

/-- With finitely many code units left in the source, the loop ends within the fuel
`remaining + 1`, its result does not depend on further fuel, and in a run that returns
every read before a `grow()` stored exactly the capacity passed, at least one code unit;
there are at most `remaining + 1` reads. -/
theorem read_loop_terminates {σ : Type} (P : Prompt σ) (remaining : σ → Nat)
    (hfin : ∀ s n, (P.read_line s n).1.length + remaining (P.read_line s n).2 ≤ remaining s)
    (g : Nat → Nat) (hg : ∀ c, c < g c) :
    ∀ (fuel : Nat) (sh : shell σ), remaining sh._prompt < fuel → 0 < sh._buffer.write_size →
      shell.read_loop P g fuel sh ≠ .error Fault.out_of_fuel ∧
      (∀ more, shell.read_loop P g (fuel + more) sh = shell.read_loop P g fuel sh) ∧
      (∀ r sh1, shell.read_loop P g fuel sh = .ok (r, sh1) →
        ∃ evs, sh1.trace = sh.trace ++ evs ∧ full_before_grow evs = true ∧
          (read_sizes evs).length ≤ remaining sh._prompt + 1) := by
  intro fuel
  induction fuel with
  | zero => intro sh h; simp at h
  | succ fuel ih =>
    intro sh hfuel hws
    rcases read_loop_iteration P g sh with ⟨res, hres, hne, htr⟩ | ⟨hfull, hstep⟩
    · refine ⟨by rw [hres]; exact hne, fun more => ?_, fun r sh1 h => ?_⟩
      · rw [hres fuel, show fuel + 1 + more = (fuel + more) + 1 by omega, hres]
      · rw [hres] at h
        rcases htr r sh1 h with ht | ht
        · refine ⟨[Event.read_line sh._buffer.write_size
            (P.read_line sh._prompt sh._buffer.write_size).1], ?_, rfl, ?_⟩
          · rw [ht]; rfl
          · simp [read_sizes]
        · refine ⟨[Event.read_line sh._buffer.write_size
            (P.read_line sh._prompt sh._buffer.write_size).1, Event.done], ?_, rfl, ?_⟩
          · rw [ht]; simp [shell.after_read]
          · simp [read_sizes]
    · have hdec := hfin sh._prompt sh._buffer.write_size
      have hrem : remaining ((sh.after_read P).grow g)._prompt < fuel := by
        simp only [shell.grow, shell.after_read]
        omega
      have hws2 : 0 < ((sh.after_read P).grow g)._buffer.write_size := by
        have := hg (sh.after_read P)._buffer.capacity
        simp only [shell.grow, buffer_builder.grow, buffer_builder.capacity] at this ⊢
        simp only [shell.after_read, hfull] at this ⊢
        omega
      obtain ⟨hend, hmore, htrace⟩ := ih ((sh.after_read P).grow g) hrem hws2
      refine ⟨by rw [hstep]; exact hend, fun more => ?_, fun r sh1 h => ?_⟩
      · rw [hstep fuel, show fuel + 1 + more = (fuel + more) + 1 by omega, hstep, hmore]
      · rw [hstep] at h
        obtain ⟨evs, ht, hfb, hcount⟩ := htrace r sh1 h
        refine ⟨Event.read_line sh._buffer.write_size
          (P.read_line sh._prompt sh._buffer.write_size).1 :: Event.grow :: evs, ?_, ?_, ?_⟩
        · rw [ht]; simp [shell.grow, shell.after_read]
        · simp [full_before_grow, hfull, hws, hfb]
        · have hr : remaining ((sh.after_read P).grow g)._prompt
              = remaining (P.read_line sh._prompt sh._buffer.write_size).2 := rfl
          simp only [read_sizes, List.length_cons]
          omega

theorem take_line_length_le_data (d : List char_type) (n : Nat) :
    (take_line d n).length ≤ d.length := by
  induction d generalizing n with
  | nil => simp [take_line]
  | cons c cs ih =>
    cases n with
    | zero => simp [take_line]
    | succ n =>
      by_cases h : c = newline
      · simp [take_line, h]
      · simpa [take_line, h] using ih n

theorem script_prompt_finite (s : List char_type) (n : Nat) :
    (script_prompt.read_line s n).1.length + (script_prompt.read_line s n).2.length
      ≤ s.length := by
  have := take_line_length_le_data s n
  simp only [script_prompt, List.length_drop]
  omega

/-- C19, termination: over a prompt whose source has finitely many code units left
(`remaining`, which every read lowers by what it stores), `append_next_line` ends within
`remaining + 1` iterations, with the same result for any larger bound; in a run that
returns there are at most `remaining + 1` reads, and every read that is not the last one
stored exactly the write capacity passed to it, at least one code unit. -/
theorem append_next_line_terminates {σ : Type} (P : Prompt σ) (remaining : σ → Nat)
    (hfin : ∀ s n, (P.read_line s n).1.length + remaining (P.read_line s n).2 ≤ remaining s)
    (g : Nat → Nat) (hg : ∀ c, c < g c) (sh : shell σ) :
    shell.append_next_line P g (remaining sh._prompt + 1) sh ≠ .error Fault.out_of_fuel ∧
    (∀ more, shell.append_next_line P g (remaining sh._prompt + 1 + more) sh
      = shell.append_next_line P g (remaining sh._prompt + 1) sh) ∧
    (∀ r sh1, shell.append_next_line P g (remaining sh._prompt + 1) sh = .ok (r, sh1) →
      ∃ evs, sh1.trace = sh.trace ++ evs ∧ full_before_grow evs = true ∧
        (read_sizes evs).length ≤ remaining sh._prompt + 1) := by
  by_cases hsmall : sh._buffer.write_size < 128
  · have hws : 0 < (sh.grow g)._buffer.write_size := by
      have := hg sh._buffer.capacity
      simp only [shell.grow, buffer_builder.grow, buffer_builder.capacity] at this ⊢
      omega
    obtain ⟨hend, hmore, htrace⟩ :=
      read_loop_terminates P remaining hfin g hg (remaining sh._prompt + 1) (sh.grow g)
        (Nat.lt_succ_self _) hws
    simp only [shell.append_next_line, hsmall, if_true]
    refine ⟨hend, hmore, fun r sh1 h => ?_⟩
    obtain ⟨evs, ht, hfb, hcount⟩ := htrace r sh1 h
    refine ⟨Event.grow :: evs, ?_, ?_, ?_⟩
    · rw [ht]; simp [shell.grow]
    · simpa [full_before_grow] using hfb
    · simpa [read_sizes, shell.grow] using hcount
  · obtain ⟨hend, hmore, htrace⟩ :=
      read_loop_terminates P remaining hfin g hg (remaining sh._prompt + 1) sh
        (Nat.lt_succ_self _) (by omega)
    simp only [shell.append_next_line, hsmall, if_false]
    exact ⟨hend, hmore, htrace⟩

/-- Scenario 2 for C19: the script holds 301 code units, and the call ends within 302
iterations. -/
theorem append_next_line_terminates_witness :
    shell.append_next_line script_prompt (doubling 128)
        ((shell.fresh 128 (List.replicate 300 97 ++ [newline]))._prompt.length + 1)
        (shell.fresh 128 (List.replicate 300 97 ++ [newline]))
      ≠ .error Fault.out_of_fuel :=
  (append_next_line_terminates script_prompt List.length script_prompt_finite (doubling 128)
    (doubling_enlarges 128 (by decide))
    (shell.fresh 128 (List.replicate 300 97 ++ [newline]))).1

/-! ## The default prompt and the reads outside the committed data -/

set_option maxRecDepth 100000 in
/-- C11, the default prompt, on a new shell of capacity 128 and the line of 127 code units
and a newline on an open `stdin`: `fgets` is given the size 128 and stores 127 characters,
so the callback returns 127 with the newline unread and the stream open;
`append_next_line` finds no newline and fewer than 128 code units read, and its assertion
that the prompt is closed fails, where a grown buffer and the whole line are expected.
Besides, on a line that starts with a zero the callback returns 0 with data available. -/
theorem default_prompt_long_line (fuel : Nat) :
    default_prompt.read_line { data := List.replicate 127 97 ++ [newline], at_eof := false } 128
      = (List.replicate 127 97, { data := [newline], at_eof := false }) ∧
    shell.append_next_line default_prompt (doubling 128) (fuel + 1)
        (shell.fresh 128 { data := List.replicate 127 97 ++ [newline], at_eof := false })
      = .error Fault.assertion ∧
    shell.prompt_for_input default_prompt (doubling 128) (fuel + 1)
        (shell.fresh 128 { data := List.replicate 127 97 ++ [newline], at_eof := false })
      = .error Fault.assertion ∧
    default_prompt.read_line { data := [0, 97, newline], at_eof := false } 128
      = ([], { data := [], at_eof := false }) :=
  ⟨rfl, rfl, rfl, rfl⟩

/-- C16, `peek()` and the committed data, on a reader driven from `prompt_for_input()`
over the input "ok\n" of a stream that then ends: after three `peek()`/`bump()` pairs the
index is 3, `eof()` returns false there although 3 is not below `read_size()`, and
`peek()` reads `read_data()[3]`, which is not committed. -/
theorem peek_reads_uncommitted_data (fuel : Nat) :
    shell.prompt_for_input stream_prompt (doubling 128) (fuel + 1)
        (shell.fresh 128 { data := [111, 107, 10], at_eof := false })
      = .ok ({ _idx := 0 },
          { _buffer := { read_data := [111, 107, 10], write_size := 125 },
            _prompt := { data := [], at_eof := false },
            trace := [Event.primary_prompt, Event.read_line 128 [111, 107, 10], Event.done] }) ∧
    run_ops stream_prompt (doubling 128) (fuel + 1)
        [reader_op.peek, reader_op.bump, reader_op.peek, reader_op.bump, reader_op.peek,
          reader_op.bump]
        { _buffer := { read_data := [111, 107, 10], write_size := 125 },
          _prompt := { data := [], at_eof := false },
          trace := [Event.primary_prompt, Event.read_line 128 [111, 107, 10], Event.done] }
        { _idx := 0 }
      = .ok ({ _idx := 3 },
          { _buffer := { read_data := [111, 107, 10], write_size := 125 },
            _prompt := { data := [], at_eof := false },
            trace := [Event.primary_prompt, Event.read_line 128 [111, 107, 10], Event.done] }) ∧
    input.eof stream_prompt (doubling 128) (fuel + 1)
        { _buffer := { read_data := [111, 107, 10], write_size := 125 },
          _prompt := { data := [], at_eof := false },
          trace := [Event.primary_prompt, Event.read_line 128 [111, 107, 10], Event.done] }
        { _idx := 3 }
      = .ok (false,
          { _buffer := { read_data := [111, 107, 10], write_size := 253 },
            _prompt := { data := [], at_eof := true },
            trace := [Event.primary_prompt, Event.read_line 128 [111, 107, 10], Event.done,
              Event.continuation_prompt, Event.grow, Event.read_line 253 [], Event.done] }) ∧
    ¬ (3 < buffer_builder.read_size { read_data := [111, 107, 10], write_size := 253 }) ∧
    buffer_builder.read_at { read_data := [111, 107, 10], write_size := 253 } 3
      = .error Fault.out_of_bounds ∧
    input.peek stream_prompt (doubling 128) (fuel + 1)
        { _buffer := { read_data := [111, 107, 10], write_size := 125 },
          _prompt := { data := [], at_eof := false },
          trace := [Event.primary_prompt, Event.read_line 128 [111, 107, 10], Event.done] }
        { _idx := 3 }
      = .error Fault.out_of_bounds :=
  ⟨rfl, rfl, rfl, by decide, rfl, rfl⟩

/-- C17, the newline check, on reads that store nothing.  On a new shell the read region is
empty when `write_data()[-1]` is inspected.  After the empty line "\n" the inspection finds
the newline at index 0, which an earlier call committed, and `append_next_line` reports
success with a read of 0 code units. -/
theorem newline_check_without_new_data (fuel capacity : Nat) :
    buffer_builder.commit { read_data := [], write_size := capacity + 1 } []
      = .ok { read_data := [], write_size := capacity + 1 } ∧
    buffer_builder.last_committed { read_data := [], write_size := capacity + 1 }
      = .error Fault.out_of_bounds ∧
    shell.read_loop stream_prompt (doubling 128) (fuel + 1)
        (shell.fresh (capacity + 1) { data := [], at_eof := false })
      = .error Fault.out_of_bounds ∧
    shell.append_next_line stream_prompt (doubling 128) (fuel + 1)
        { _buffer := { read_data := [10], write_size := 127 },
          _prompt := { data := [], at_eof := false },
          trace := [Event.primary_prompt, Event.read_line 128 [10], Event.done] }
      = .ok (true,
          { _buffer := { read_data := [10], write_size := 255 },
            _prompt := { data := [], at_eof := true },
            trace := [Event.primary_prompt, Event.read_line 128 [10], Event.done,
              Event.grow, Event.read_line 255 [], Event.done] }) :=
  ⟨rfl, rfl, read_loop_nothing _ _ _ _ (Nat.zero_le _) rfl, rfl⟩

end lexy
